import Mathlib

/-!
Verification of the Drools rule-file parser and the graph query engine.

The parser (`drools_graph_rag/parser/parser.py`) is pattern based: each
regular expression used by `DroolsParser` is embedded here as an executable
matcher over `List Char`, with Python's leftmost-search and greedy/backtracking
semantics implemented via descending-length search.  The analysis engine
(`drools_graph_rag/query_engine/query_engine.py`) is embedded as functions
over an explicit in-memory model of the rule graph.
-/

namespace Drools

abbrev Chars := List Char

/-- The double-quote character (written numerically for clarity). -/
def dquote : Char := Char.ofNat 34

/-- The single-quote character. -/
def squote : Char := Char.ofNat 39

/-- Python `\s` (ASCII whitespace as used by `str.strip` and `re`). -/
def isWs (c : Char) : Bool :=
  c = ' ' || c = '\t' || c = '\n' || c = '\r' || c = Char.ofNat 11 || c = Char.ofNat 12

/-- Python `\w`: letters, digits and underscore. -/
def isWordChar (c : Char) : Bool := c.isAlphanum || c = '_'

/-- The character class `[=!<>]` of `constraint_pattern`. -/
def isOpChar (c : Char) : Bool := c = '=' || c = '!' || c = '<' || c = '>'

/-- Python `str.strip()` from the left. -/
def trimL (s : Chars) : Chars := s.dropWhile (fun c => isWs c)

/-- Python `str.strip()`. -/
def trim (s : Chars) : Chars := ((trimL s).reverse.dropWhile (fun c => isWs c)).reverse

/-- Python `str.split(sep)` for a one-character separator. -/
def splitOnChar (sep : Char) : Chars → List Chars
  | [] => [[]]
  | c :: rest =>
    let r := splitOnChar sep rest
    if c = sep then [] :: r
    else
      match r with
      | [] => [[c]]
      | h :: t => (c :: h) :: t

/-- Python `sep.join(parts)` for a one-character separator. -/
def joinChar (sep : Char) (parts : List Chars) : Chars :=
  List.intercalate [sep] parts

/-- Python `str.startswith`. -/
def isPref : Chars → Chars → Bool
  | [], _ => true
  | _ :: _, [] => false
  | p :: ps, c :: cs => p = c && isPref ps cs

/-- Consume a literal, returning the remainder on success. -/
def dropLit : Chars → Chars → Option Chars
  | [], s => some s
  | _ :: _, [] => none
  | p :: ps, c :: cs => if p = c then dropLit ps cs else none

/-- Number of occurrences of a character. -/
def countChar (c : Char) (s : Chars) : Nat := (s.filter (fun x => x = c)).length

/-- Try `f n`, `f (n-1)`, ..., `f 0`, returning the first success
(greedy regex quantifier `*` with backtracking). -/
def tryDown (f : Nat → Option α) : Nat → Option α
  | 0 => f 0
  | n + 1 =>
    match f (n + 1) with
    | some a => some a
    | none => tryDown f n

/-- Try `f n`, ..., `f 1`, returning the first success
(greedy regex quantifier `+` with backtracking). -/
def tryDown1 (f : Nat → Option α) : Nat → Option α
  | 0 => none
  | n + 1 =>
    match f (n + 1) with
    | some a => some a
    | none => tryDown1 f n

/-- Length of the maximal run of `p`-characters at the front. -/
def runLen (p : Char → Bool) (s : Chars) : Nat := (s.takeWhile p).length

/-- Regex `\s*` followed by continuation `k` on the rest. -/
def wsStar (k : Chars → Option α) (s : Chars) : Option α :=
  tryDown (fun n => k (s.drop n)) (runLen isWs s)

/-- Regex `\s+` followed by continuation `k` on the rest. -/
def wsPlus (k : Chars → Option α) (s : Chars) : Option α :=
  tryDown1 (fun n => k (s.drop n)) (runLen isWs s)

/-- Regex `[p]+` (greedy, capturing) followed by continuation `k`. -/
def classPlus (p : Char → Bool) (k : Chars → Chars → Option α) (s : Chars) : Option α :=
  tryDown1 (fun n => k (s.take n) (s.drop n)) (runLen p s)

/-- Regex `[p]*` (greedy, capturing) followed by continuation `k`. -/
def classStar (p : Char → Bool) (k : Chars → Chars → Option α) (s : Chars) : Option α :=
  tryDown (fun n => k (s.take n) (s.drop n)) (runLen p s)

/-- Literal token followed by continuation `k`. -/
def lit (l : Chars) (k : Chars → Option α) (s : Chars) : Option α :=
  match dropLit l s with
  | some r => k r
  | none => none

/-- A single expected character followed by continuation `k`. -/
def chr (c : Char) (k : Chars → Option α) (s : Chars) : Option α :=
  match s with
  | c2 :: r => if c2 = c then k r else none
  | [] => none

/-- Regex `c?` (greedy: try consuming first). -/
def optChr (c : Char) (k : Chars → Option α) (s : Chars) : Option α :=
  match s with
  | c2 :: r =>
    if c2 = c then
      match k r with
      | some a => some a
      | none => k s
    else k s
  | [] => k s

/-- `re.search`: leftmost position where the matcher succeeds, paired with
the start index of the match. -/
def searchM (m : Chars → Option α) : Chars → Option (Nat × α)
  | [] =>
    match m [] with
    | some a => some (0, a)
    | none => none
  | c :: rest =>
    match m (c :: rest) with
    | some a => some (0, a)
    | none =>
      match searchM m rest with
      | some (i, a) => some (i + 1, a)
      | none => none

/-- `re.finditer`: non-overlapping matches scanning left to right, resuming
after each match's end.  `fuel` bounds the recursion (pass the input length). -/
def iterM (m : Chars → Option (γ × Chars)) : Nat → Chars → List γ
  | 0, _ => []
  | fuel + 1, s =>
    match searchM m s with
    | none => []
    | some (_, (g, rest)) => g :: iterM m fuel rest

/-- `re.finditer` variant also reporting each match's absolute start and end
offsets (`base` is the absolute offset of `s`). -/
def iterMPos (m : Chars → Option (γ × Chars)) :
    Nat → Chars → Nat → List (Nat × Nat × γ)
  | 0, _, _ => []
  | fuel + 1, s, base =>
    match searchM m s with
    | none => []
    | some (i, (g, rest)) =>
      let en := base + (s.length - rest.length)
      (base + i, en, g) :: iterMPos m fuel rest en

/-! ## The parser's regular expressions as matchers

Each matcher returns its capture groups together with the remainder of the
input after the match. -/

/-- The digit string of a salience literal as a number. -/
def digitsToNat (ds : Chars) : Nat := ds.foldl (fun a c => a * 10 + (c.toNat - 48)) 0

/-- `rule_pattern`: `rule\s+"([^"]+)"`, capturing the rule name. -/
def ruleNameM : Chars → Option (Chars × Chars) :=
  lit "rule".toList (wsPlus (chr dquote (classPlus (fun c => c != dquote)
    (fun nm => chr dquote (fun rest => some (nm, rest))))))

/-- `extends_pattern`: `extends\s+"([^"]+)"`. -/
def extendsM : Chars → Option (Chars × Chars) :=
  lit "extends".toList (wsPlus (chr dquote (classPlus (fun c => c != dquote)
    (fun nm => chr dquote (fun rest => some (nm, rest))))))

/-- `salience_pattern`: `salience\s+(-?\d+)`, with the `int(...)` conversion. -/
def salienceM : Chars → Option (Int × Chars) :=
  lit "salience".toList (wsPlus (fun s =>
    match s with
    | '-' :: r => classPlus Char.isDigit
        (fun ds rest => some (-(digitsToNat ds : Int), rest)) r
    | _ => classPlus Char.isDigit
        (fun ds rest => some ((digitsToNat ds : Int), rest)) s))

/-- `attribute_pattern`: `\s+(\w+)\s+([^,]+)`. -/
def attributeM : Chars → Option ((Chars × Chars) × Chars) :=
  wsPlus (classPlus isWordChar (fun w => wsPlus (classPlus (fun c => c != ',')
    (fun v rest => some ((w, v), rest)))))

/-- `when_pattern`: `\s+when`.  The result is the rest after the match. -/
def whenM : Chars → Option Chars :=
  wsPlus (lit "when".toList (fun rest => some rest))

/-- `then_pattern`: `\s+then`. -/
def thenM : Chars → Option Chars :=
  wsPlus (lit "then".toList (fun rest => some rest))

/-- `end_pattern`: the literal `end`. -/
def endM : Chars → Option Chars :=
  lit "end".toList (fun rest => some rest)

/-- `condition_pattern`: `\s+\$?(\w+)\s*:\s*([^\(]+)\(([^\)]*)\)`. -/
def conditionM : Chars → Option ((Chars × Chars × Chars) × Chars) :=
  wsPlus (optChr '$' (classPlus isWordChar (fun v => wsStar (chr ':'
    (wsStar (classPlus (fun c => c != '(') (fun ty => chr '('
      (classStar (fun c => c != ')') (fun cs => chr ')'
        (fun rest => some ((v, ty, cs), rest)))))))))))

/-- The operator alternation `[=!<>]+|==|!=|<=|>=|matches` of
`constraint_pattern` (the first alternative subsumes the middle four). -/
def opM (k : Chars → Chars → Option α) (s : Chars) : Option α :=
  match tryDown1 (fun n => k (s.take n) (s.drop n)) (runLen isOpChar s) with
  | some a => some a
  | none => lit "matches".toList (k "matches".toList) s

/-- `constraint_pattern`: `(\w+)\s*([=!<>]+|==|!=|<=|>=|matches)\s*([^,&\)]+)`. -/
def constraintM : Chars → Option ((Chars × Chars × Chars) × Chars) :=
  classPlus isWordChar (fun f => wsStar (opM (fun op => wsStar
    (classPlus (fun c => c != ',' && c != '&' && c != ')')
      (fun v rest => some ((f, op, v), rest))))))

/-- The action method-call pattern `([^.]+)\.(\w+)\(([^)]*)\)`. -/
def methodM : Chars → Option ((Chars × Chars × Chars) × Chars) :=
  classPlus (fun c => c != '.') (fun tgt => chr '.' (classPlus isWordChar
    (fun mth => chr '(' (classStar (fun c => c != ')') (fun args => chr ')'
      (fun rest => some ((tgt, mth, args), rest)))))))

/-- The action assignment pattern `([^=]+)\s*=\s*(.+)` (`.` excludes newline). -/
def assignM : Chars → Option ((Chars × Chars) × Chars) :=
  classPlus (fun c => c != '=') (fun l => wsStar (chr '=' (wsStar
    (classPlus (fun c => c != '\n') (fun r rest => some ((l, r), rest))))))

/-- `package_pattern`: `package\s+([^;]+);?`. -/
def packageM : Chars → Option (Chars × Chars) :=
  lit "package".toList (wsPlus (classPlus (fun c => c != ';')
    (fun p rest => some (p, rest))))

/-- `import_pattern`: `import\s+([^;]+);?`. -/
def importM : Chars → Option (Chars × Chars) :=
  lit "import".toList (wsPlus (classPlus (fun c => c != ';')
    (fun p rest => some (p, rest))))

/-- `global_pattern`: `global\s+([^\s]+)\s+([^;]+);?`. -/
def globalM : Chars → Option ((Chars × Chars) × Chars) :=
  lit "global".toList (wsPlus (classPlus (fun c => !isWs c) (fun t =>
    wsPlus (classPlus (fun c => c != ';') (fun n rest => some ((t, n), rest))))))

/-- `query_pattern`: `query\s+"([^"]+)"`. -/
def queryNameM : Chars → Option (Chars × Chars) :=
  lit "query".toList (wsPlus (chr dquote (classPlus (fun c => c != dquote)
    (fun nm => chr dquote (fun rest => some (nm, rest))))))

/-- `function_pattern`: `function\s+([^\s(]+)\s+([^\s(]+)\s*\(([^)]*)\)`. -/
def functionM : Chars → Option ((Chars × Chars × Chars) × Chars) :=
  lit "function".toList (wsPlus (classPlus (fun c => !isWs c && c != '(')
    (fun rt => wsPlus (classPlus (fun c => !isWs c && c != '(') (fun nm =>
      wsStar (chr '(' (classStar (fun c => c != ')') (fun ps => chr ')'
        (fun rest => some ((rt, nm, ps), rest))))))))))

/-- `declare_pattern`: `declare\s+([^\s]+)`. -/
def declareM : Chars → Option (Chars × Chars) :=
  lit "declare".toList (wsPlus (classPlus (fun c => !isWs c)
    (fun n rest => some (n, rest))))

/-- `end_declare_pattern`: `end\s*declare`. -/
def endDeclareM : Chars → Option Chars :=
  lit "end".toList (wsStar (lit "declare".toList (fun rest => some rest)))

/-- The annotation pattern `@(\w+)(?:\(([^)]*)\))?` (missing group 2 becomes
the empty string, mirroring `annotation_match.group(2) or ""`). -/
def annotationM : Chars → Option ((Chars × Chars) × Chars) :=
  chr '@' (classPlus isWordChar (fun n s =>
    match chr '(' (classStar (fun c => c != ')') (fun a => chr ')'
        (fun rest => some ((n, a), rest)))) s with
    | some r => some r
    | none => some ((n, ([] : Chars)), s)))

/-- The declared-type field pattern `\s+(\w+)\s+(\w+)(?:\s*:\s*(.+))?`. -/
def declFieldM : Chars → Option ((Chars × Chars × Chars) × Chars) :=
  wsPlus (classPlus isWordChar (fun t => wsPlus (classPlus isWordChar (fun n s =>
    match wsStar (chr ':' (wsStar (classPlus (fun c => c != '\n')
        (fun a rest => some ((t, n, a), rest))))) s with
    | some r => some r
    | none => some ((t, n, ([] : Chars)), s)))))

/-! ## Data model (`parser/models.py`) -/

/-- The `error_type` categories of `ParserErrorHandler.handle_error`. -/
inductive DiagCat
  | file | rule | condition | action | query | function | declaredType | other
  deriving DecidableEq, Repr

structure ConstraintM where
  field : Chars
  operator : Chars
  value : Chars
  deriving DecidableEq, Repr

structure ConditionM where
  var : Chars
  type : Chars
  constraints : List ConstraintM
  deriving DecidableEq, Repr

structure ActionM where
  type : Chars
  target : Chars
  method : Option Chars
  arguments : List Chars
  deriving DecidableEq, Repr

structure RuleM where
  name : Chars
  extendsName : Option Chars
  salience : Option Int
  conditions : List ConditionM
  actions : List ActionM
  attributes : List (Chars × Chars)
  deriving DecidableEq, Repr

structure ParameterM where
  type : Chars
  name : Chars
  deriving DecidableEq, Repr

structure FunctionM where
  return_type : Chars
  name : Chars
  parameters : List ParameterM
  body : Chars
  deriving DecidableEq, Repr

structure QueryM where
  name : Chars
  conditions : List ConditionM
  deriving DecidableEq, Repr

structure FieldM where
  type : Chars
  name : Chars
  annotations : List (Chars × Chars)
  deriving DecidableEq, Repr

structure DeclaredTypeM where
  name : Chars
  fields : List FieldM
  annotations : List (Chars × Chars)
  deriving DecidableEq, Repr

structure ImportM where
  package : Chars
  class_name : Chars
  deriving DecidableEq, Repr

structure GlobalM where
  type : Chars
  name : Chars
  deriving DecidableEq, Repr

structure RuleFileM where
  package : Chars
  imports : List ImportM
  globals : List GlobalM
  rules : List RuleM
  queries : List QueryM
  functions : List FunctionM
  declared_types : List DeclaredTypeM
  deriving DecidableEq, Repr

/-! ## String utilities mirroring the Python operations used by the parser -/

/-- Python dict assignment `d[k] = v`: replace in place or append. -/
def dictInsert (m : List (Chars × Chars)) (k v : Chars) : List (Chars × Chars) :=
  if m.any (fun p => p.1 == k) then
    m.map (fun p => if p.1 == k then (k, v) else p)
  else m ++ [(k, v)]

/-- The quote stripping of `_parse_constraints`: remove one layer of quotes
when the value both starts and ends with the same quote character. -/
def stripQuotes (v : Chars) : Chars :=
  match v.head?, v.getLast? with
  | some a, some b =>
    if (a = dquote && b = dquote) || (a = squote && b = squote) then
      (v.drop 1).dropLast
    else v
  | _, _ => v

/-- Python `str.split()` (split on whitespace runs, dropping empty parts). -/
def splitWsGo : Chars → Chars → List Chars
  | [], cur => if cur.isEmpty then [] else [cur.reverse]
  | c :: rest, cur =>
    if isWs c then (if cur.isEmpty then [] else [cur.reverse]) ++ splitWsGo rest []
    else splitWsGo rest (c :: cur)

def splitWs (s : Chars) : List Chars := splitWsGo s []

/-- Python `s.find(c)`. -/
def idxOfChar? (c : Char) (s : Chars) : Option Nat := s.findIdx? (fun x => x = c)

/-- Python `s.rfind(c)`. -/
def lastIdxOfChar? (c : Char) (s : Chars) : Option Nat :=
  match s.reverse.findIdx? (fun x => x = c) with
  | some i => some (s.length - 1 - i)
  | none => none

/-- Python `s.find(c, p)`. -/
def idxOfCharFrom? (c : Char) (s : Chars) (p : Nat) : Option Nat :=
  match (s.drop p).findIdx? (fun x => x = c) with
  | some i => some (p + i)
  | none => none

/-- Python `s.rsplit(' ', 1)` when a space is present. -/
def rsplitLastSpace (s : Chars) : Option (Chars × Chars) :=
  match s.reverse.findIdx? (fun c => c = ' ') with
  | none => none
  | some ri =>
    let i := s.length - 1 - ri
    some (s.take i, s.drop (i + 1))

/-! ## Construct parsers (`DroolsParser`) -/

/-- `_split_constraints`: split on `&` at parenthesis depth 0, keeping
stripped nonempty parts (both characters of `&&` trigger a flush; the
second flush is empty and dropped). -/
def splitConstraintsGo : Chars → Chars → Int → List Chars
  | [], current, _ => if (trim current).isEmpty then [] else [trim current]
  | c :: rest, current, depth =>
    if c = '(' then splitConstraintsGo rest (current ++ [c]) (depth + 1)
    else if c = ')' then splitConstraintsGo rest (current ++ [c]) (depth - 1)
    else if c = '&' && depth = 0 then
      (if (trim current).isEmpty then [] else [trim current]) ++
        splitConstraintsGo rest [] 0
    else splitConstraintsGo rest (current ++ [c]) depth

def splitConstraints (s : Chars) : List Chars := splitConstraintsGo s [] 0

/-- One part of `_parse_constraints`: match it against `constraint_pattern`;
an unmatched part records one recoverable condition diagnostic and is
dropped. -/
def constraintStep (acc : List ConstraintM × List DiagCat) (part : Chars) :
    List ConstraintM × List DiagCat :=
  match searchM constraintM part with
  | some (_, ((f, op, v), _)) =>
    (acc.1 ++ [⟨f, op, stripQuotes (trim v)⟩], acc.2)
  | none => (acc.1, acc.2 ++ [DiagCat.condition])

/-- `_parse_constraints`. -/
def parseConstraints (constraintsStr : Chars) : List ConstraintM × List DiagCat :=
  (splitConstraints constraintsStr).foldl constraintStep ([], [])

/-- One `condition_pattern` match of `_parse_conditions`. -/
def conditionStep (acc : List ConditionM × List DiagCat) (g : Chars × Chars × Chars) :
    List ConditionM × List DiagCat :=
  let (v, ty, cs) := g
  let consStr := trim cs
  let (ks, ds) := if consStr.isEmpty then ([], []) else parseConstraints consStr
  (acc.1 ++ [⟨v, trim ty, ks⟩], acc.2 ++ ds)

/-- `_parse_conditions`: `condition_pattern.finditer` over the when-part. -/
def parseConditions (whenPart : Chars) : List ConditionM × List DiagCat :=
  (iterM conditionM (whenPart.length + 1) whenPart).foldl conditionStep ([], [])

/-- State of the `_parse_arguments` character scanner. -/
structure ArgSt where
  args : List Chars
  current : Chars
  paren : Int
  quoteCh : Option Char

/-- One step of the `_parse_arguments` scanner. -/
def argStep (st : ArgSt) (c : Char) : ArgSt :=
  if c = dquote || c = squote then
    match st.quoteCh with
    | none => { st with quoteCh := some c, current := st.current ++ [c] }
    | some q =>
      if q = c then { st with quoteCh := none, current := st.current ++ [c] }
      else { st with current := st.current ++ [c] }
  else if c = '(' && st.quoteCh = none then
    { st with paren := st.paren + 1, current := st.current ++ [c] }
  else if c = ')' && st.quoteCh = none then
    { st with paren := st.paren - 1, current := st.current ++ [c] }
  else if c = ',' && st.paren = 0 && st.quoteCh = none then
    { st with args := st.args ++ [trim st.current], current := [] }
  else { st with current := st.current ++ [c] }

/-- `_parse_arguments`: nested-paren and quote aware comma splitting. -/
def parseArguments (s : Chars) : List Chars :=
  if s.isEmpty then []
  else
    let st := s.foldl argStep ⟨[], [], 0, none⟩
    if (trim st.current).isEmpty then st.args else st.args ++ [trim st.current]

/-- The per-line cleanup of `_parse_actions`: strip, drop blank and `//`
lines, drop one trailing semicolon. -/
def cleanThenLines (thenPart : Chars) : List Chars :=
  (splitOnChar '\n' thenPart).filterMap (fun l =>
    let l := trim l
    if l.isEmpty then none
    else if isPref "//".toList l then none
    else some (if l.getLast? = some ';' then l.dropLast else l))

/-- Statement classification of `_parse_actions`: method call, then
assignment, then generic statement.  (`_parse_arguments` never raises, so
the fallback method-call-without-arguments branch is unreachable.) -/
def classifyStatement (statement : Chars) : ActionM :=
  match searchM methodM statement with
  | some (_, ((tgt, mth, argsStr), _)) =>
    ⟨"method_call".toList, trim tgt, some (trim mth), parseArguments (trim argsStr)⟩
  | none =>
    match searchM assignM statement with
    | some (_, ((l, r), _)) => ⟨"assignment".toList, trim l, none, [trim r]⟩
    | none => ⟨"statement".toList, statement, none, []⟩

/-- `_parse_actions` over the then-part. -/
def parseActions (thenPart : Chars) : List ActionM :=
  let thenText := joinChar ' ' (cleanThenLines thenPart)
  (splitOnChar ';' thenText).foldl
    (fun acc stmt =>
      let stmt := trim stmt
      if stmt.isEmpty then acc else acc ++ [classifyStatement stmt])
    []

/-- `_parse_rule_block`.  `none` models the raised `MalformedRuleError`
(no name, or missing `when`/`then`/`end` marker); the accompanying list
holds the recoverable diagnostics recorded while parsing constraints. -/
def parseRuleBlock (ruleBlock : Chars) : Option RuleM × List DiagCat :=
  match searchM ruleNameM ruleBlock with
  | none => (none, [])
  | some (_, (ruleName, _)) =>
    let ext := match searchM extendsM ruleBlock with
      | some (_, (p, _)) => some p
      | none => none
    let sal := match searchM salienceM ruleBlock with
      | some (_, (n, _)) => some n
      | none => none
    let attrs := (iterM attributeM (ruleBlock.length + 1) ruleBlock).foldl
      (fun m g =>
        let (an, av) := g
        if an = "extends".toList || an = "salience".toList ||
            an = "when".toList || an = "then".toList then m
        else dictInsert m an (trim av))
      []
    match searchM whenM ruleBlock, searchM thenM ruleBlock, searchM endM ruleBlock with
    | some (_, wRest), some (tIdx, tRest), some (eIdx, _) =>
      let wEnd := ruleBlock.length - wRest.length
      let tEnd := ruleBlock.length - tRest.length
      let whenPart := (ruleBlock.drop wEnd).take (tIdx - wEnd)
      let thenPart := (ruleBlock.drop tEnd).take (eIdx - tEnd)
      let (conds, ds) := parseConditions whenPart
      let acts := parseActions thenPart
      (some ⟨ruleName, ext, sal, conds, acts, attrs⟩, ds)
    | _, _, _ => (none, [])

/-- `_extract_rule_blocks`: line scanning with force-close on a new
`rule` line and close on a line-initial `end` (after strip). -/
def extractBlocksRule : List Chars → List Chars → Bool → List Chars
  | [], current, _ => if current.isEmpty then [] else [joinChar '\n' current]
  | line :: rest, current, inRule =>
    if (ruleNameM line).isSome then
      (if inRule then [joinChar '\n' current] else []) ++
        extractBlocksRule rest [line] true
    else if inRule then
      let current := current ++ [line]
      if (endM (trim line)).isSome then
        joinChar '\n' current :: extractBlocksRule rest [] false
      else extractBlocksRule rest current true
    else extractBlocksRule rest current false

def extractRuleBlocks (content : Chars) : List Chars :=
  extractBlocksRule (splitOnChar '\n' content) [] false

/-- The query block extraction inside `_parse_queries` (the trailing open
block is kept only while still inside a query). -/
def extractBlocksQuery : List Chars → List Chars → Bool → List Chars
  | [], current, inQuery =>
    if !current.isEmpty && inQuery then [joinChar '\n' current] else []
  | line :: rest, current, inQuery =>
    if (queryNameM line).isSome then
      (if inQuery then [joinChar '\n' current] else []) ++
        extractBlocksQuery rest [line] true
    else if inQuery then
      let current := current ++ [line]
      if (endM (trim line)).isSome then
        joinChar '\n' current :: extractBlocksQuery rest [] false
      else extractBlocksQuery rest current true
    else extractBlocksQuery rest current false

/-- A single query block of `_parse_queries` (conditions are scanned over
the whole block, constraints exactly as for rules). -/
def parseQueryBlockInline (queryBlock : Chars) : Option QueryM × List DiagCat :=
  match searchM queryNameM queryBlock with
  | none => (none, [DiagCat.query])
  | some (_, (qn, _)) =>
    let (conds, ds) := parseConditions queryBlock
    (some ⟨qn, conds⟩, ds)

def queryBlockStep (acc : List QueryM × List DiagCat) (qb : Chars) :
    List QueryM × List DiagCat :=
  match parseQueryBlockInline qb with
  | (some q, ds) => (acc.1 ++ [q], acc.2 ++ ds)
  | (none, ds) => (acc.1, acc.2 ++ ds)

/-- `_parse_queries`. -/
def parseQueries (content : Chars) : List QueryM × List DiagCat :=
  (extractBlocksQuery (splitOnChar '\n' content) [] false).foldl queryBlockStep ([], [])

/-- The first (brace-balanced, line-scanning) function block extraction of
`_parse_functions`.  A new `function` line unconditionally restarts the
current block; a block closes when the running brace count returns to zero
on a later line. -/
def extractBlocksFunction : List Chars → List Chars → Bool → Int → List Chars
  | [], current, inFn, _ =>
    if !current.isEmpty && inFn then [joinChar '\n' current] else []
  | line :: rest, current, inFn, brace =>
    if (functionM line).isSome then
      extractBlocksFunction rest [line] true
        ((countChar '{' line : Int) - (countChar '}' line : Int))
    else if inFn then
      let current := current ++ [line]
      let brace := brace + (countChar '{' line : Int) - (countChar '}' line : Int)
      if brace = 0 then joinChar '\n' current :: extractBlocksFunction rest [] false 0
      else extractBlocksFunction rest current true brace
    else extractBlocksFunction rest current false brace

/-- First-pass parameter parsing: split on commas, then on whitespace runs,
keeping `type name` pairs. -/
def parseParamsPass1 (paramsStr : Chars) : List ParameterM :=
  (splitOnChar ',' paramsStr).foldl
    (fun acc part =>
      let part := trim part
      if part.isEmpty then acc
      else
        match splitWs part with
        | t :: n :: _ => acc ++ [⟨t, n⟩]
        | _ => acc)
    []

/-- First-pass parsing of one extracted function block. -/
def parseFunctionBlock (fb : Chars) : Option FunctionM :=
  match searchM functionM fb with
  | none => none
  | some (_, ((rt, nm, ps), _)) =>
    let psT := trim ps
    let params := if psT.isEmpty then [] else parseParamsPass1 psT
    let body :=
      match idxOfChar? '{' fb, lastIdxOfChar? '}' fb with
      | some a, some b =>
        if b > a then trim ((fb.drop (a + 1)).take (b - (a + 1))) else []
      | _, _ => []
    some ⟨rt, nm, params, body⟩

/-- Second-pass parameter parsing: per comma part, split at the last space. -/
def parseParamsPass2 (ps : Chars) : List ParameterM :=
  (splitOnChar ',' ps).foldl
    (fun acc part =>
      let part := trim part
      match rsplitLastSpace part with
      | some (t, n) => acc ++ [⟨trim t, trim n⟩]
      | none => acc)
    []

/-- The brace-level scan of the second `_parse_functions` pass, looking for
the matching closing brace (level starts at 1 just after the open brace). -/
def findCloseBrace : Chars → Nat → Nat → Option Nat
  | [], _, _ => none
  | c :: rest, level, idx =>
    if c = '{' then findCloseBrace rest (level + 1) (idx + 1)
    else if c = '}' then
      if level = 1 then some idx else findCloseBrace rest (level - 1) (idx + 1)
    else findCloseBrace rest level (idx + 1)

/-- The second `_parse_functions` pass over the `function_pattern.finditer`
matches.  A missing open or close brace reaches the undefined name
`parsing_errors`, so the resulting `NameError` aborts the remaining pass
(the `true` flag); functions appended before the abort are kept. -/
def functionsPass2Go (content : Chars) :
    List (Nat × Nat × (Chars × Chars × Chars)) → List FunctionM × Bool
  | [] => ([], false)
  | (_, en, (rt, nm, ps)) :: rest =>
    match idxOfCharFrom? '{' content en with
    | none => ([], true)
    | some ob =>
      match findCloseBrace (content.drop (ob + 1)) 1 (ob + 1) with
      | none => ([], true)
      | some cb =>
        let body := trim ((content.drop (ob + 1)).take (cb - (ob + 1)))
        let psT := trim ps
        let params := if psT.isEmpty then [] else parseParamsPass2 psT
        let (fs, ab) := functionsPass2Go content rest
        (⟨trim rt, trim nm, params, body⟩ :: fs, ab)

/-- `_parse_functions`: both extraction passes append to the same list. -/
def parseFunctions (content : Chars) : List FunctionM × List DiagCat :=
  let blocks := extractBlocksFunction (splitOnChar '\n' content) [] false 0
  let p1 := blocks.foldl
    (fun (acc : List FunctionM × List DiagCat) fb =>
      match parseFunctionBlock fb with
      | some f => (acc.1 ++ [f], acc.2)
      | none => (acc.1, acc.2 ++ [DiagCat.function]))
    ([], [])
  let ms := iterMPos functionM (content.length + 1) content 0
  let (fs2, aborted) := functionsPass2Go content ms
  (p1.1 ++ fs2, p1.2 ++ if aborted then [DiagCat.function] else [])

/-- `_extract_blocks` specialised to `declare_pattern`/`end_declare_pattern`
(both applied with `search`, the end marker on the stripped line). -/
def extractBlocksDecl : List Chars → List Chars → Bool → List Chars
  | [], current, _ => if current.isEmpty then [] else [joinChar '\n' current]
  | line :: rest, current, inB =>
    if (searchM declareM line).isSome then
      (if inB then [joinChar '\n' current] else []) ++
        extractBlocksDecl rest [line] true
    else if inB then
      let current := current ++ [line]
      if (searchM endDeclareM (trim line)).isSome then
        joinChar '\n' current :: extractBlocksDecl rest [] false
      else extractBlocksDecl rest current true
    else extractBlocksDecl rest current false

/-- `_parse_declare_block` (a failure returns `None` and records no
diagnostic). -/
def parseDeclareBlock (db : Chars) : Option DeclaredTypeM :=
  match searchM declareM db with
  | none => none
  | some (_, (tn, _)) =>
    let anns := (iterM annotationM (db.length + 1) db).foldl
      (fun m g => dictInsert m g.1 g.2) []
    let fields := (iterM declFieldM (db.length + 1) db).foldl
      (fun acc g =>
        let (ft, fn, fanns) := g
        let fa := (iterM annotationM (fanns.length + 1) fanns).foldl
          (fun m a => dictInsert m a.1 a.2) []
        acc ++ [(⟨ft, fn, fa⟩ : FieldM)])
      []
    some ⟨tn, fields, anns⟩

/-- `_parse_rules`: the rule-block loop (each failed block records one rule
diagnostic and is skipped), then queries, functions and declared types. -/
def ruleBlockStep (acc : List RuleM × List DiagCat) (b : Chars) :
    List RuleM × List DiagCat :=
  match parseRuleBlock b with
  | (some r, ds) => (acc.1 ++ [r], acc.2 ++ ds)
  | (none, ds) => (acc.1, acc.2 ++ ds ++ [DiagCat.rule])

def parseRulesSection (content : Chars) :
    (List RuleM × List QueryM × List FunctionM × List DeclaredTypeM) × List DiagCat :=
  let rres := (extractRuleBlocks content).foldl ruleBlockStep ([], [])
  let (qs, qds) := parseQueries content
  let (fs, fds) := parseFunctions content
  let dts := (extractBlocksDecl (splitOnChar '\n' content) [] false).foldl
    (fun acc db =>
      match parseDeclareBlock db with
      | some dt => acc ++ [dt]
      | none => acc)
    []
  ((rres.1, qs, fs, dts), rres.2 ++ qds ++ fds)

/-- `parse_file` from the point where the file content is in hand: package,
imports, globals, then `_parse_rules`.  An effectively empty file returns an
empty model with no diagnostics. -/
def parseContent (content : Chars) : RuleFileM × List DiagCat :=
  if (trim content).isEmpty then (⟨[], [], [], [], [], [], []⟩, [])
  else
    let pkgRes : Chars × List DiagCat :=
      match searchM packageM content with
      | some (_, (raw, _)) =>
        let p := trim raw
        let p := if !p.isEmpty && p.contains '\n' then
            trim ((splitOnChar '\n' p).headD []) else p
        (p, [])
      | none => ([], [DiagCat.file])
    let imps := (iterM importM (content.length + 1) content).map (fun raw =>
      let s := trim raw
      let parts := splitOnChar '.' s
      (⟨joinChar '.' parts.dropLast, parts.getLastD []⟩ : ImportM))
    let gls := (iterM globalM (content.length + 1) content).map
      (fun g => (⟨trim g.1, trim g.2⟩ : GlobalM))
    let sec := parseRulesSection content
    (⟨pkgRes.1, imps, gls, sec.1.1, sec.1.2.1, sec.1.2.2.1, sec.1.2.2.2⟩,
      pkgRes.2 ++ sec.2)

/-! ## Error-handler traces (`error_handler.py`, `parse_file`, `parse_directory`)

`ParserErrorHandler` keeps an append-only list of error records plus derived
per-category counts; `reset_counts` clears both together, so the stored list
models the whole state.  `parse_file` calls `reset_counts` at its start and
`parse_directory` does so as well before iterating `parse_file` over the
matched files. -/

inductive HOp (α : Type)
  | reset
  | record (d : α)
  deriving DecidableEq, Repr

/-- `reset_counts` clears the stored errors; `handle_error` appends one. -/
def applyHOp (s : List α) : HOp α → List α
  | .reset => []
  | .record d => s ++ [d]

def runHOps (ops : List (HOp α)) (s : List α) : List α := ops.foldl applyHOp s

/-- The handler operations a `parse_file` call performs: a reset, then one
record per diagnostic. -/
def parseFileOps (ds : List α) : List (HOp α) := HOp.reset :: ds.map HOp.record

/-- The handler operations of a `parse_directory` call: its own reset, then
each file's `parse_file` operations in turn. -/
def parseDirectoryOps (files : List (List α)) : List (HOp α) :=
  HOp.reset :: files.flatMap parseFileOps

/-- `parse_file` on given file content records exactly the diagnostics the
content parse produces. -/
def parseFileTrace (content : Chars) : List (HOp DiagCat) :=
  parseFileOps (parseContent content).2

/-- `parse_directory` over a list of file contents. -/
def parseDirectoryTrace (contents : List Chars) : List (HOp DiagCat) :=
  HOp.reset :: contents.flatMap parseFileTrace

/-! ## Graph model for the query engine (`query_engine.py`)

Nodes and edges as built by `graph/builder.py`: `Rule` nodes own `Condition`
and `Action` nodes (`HAS_CONDITION`/`HAS_ACTION`), conditions own
`Constraint` nodes (`HAS_CONSTRAINT`), and condition/action nodes carry
`REFERENCES` edges to `Class` nodes (modelled as the class-name lists
`refs`).  Rules carry the Neo4j node id used by `id(r)` comparisons. -/

structure GCond where
  var : String
  type : String
  constraints : List (String × String × String)
  refs : List String
  deriving DecidableEq, Repr

structure GAct where
  type : String
  target : String
  method : Option String
  refs : List String
  deriving DecidableEq, Repr

structure GRule where
  id : Nat
  name : String
  package : String
  salience : Option Int
  conditions : List GCond
  actions : List GAct
  deriving DecidableEq, Repr

abbrev Graph := List GRule

/-- Classes referenced by a rule through any condition or action
(the `HAS_CONDITION|HAS_ACTION*1..2` / `REFERENCES` hop). -/
def allRefs (r : GRule) : List String :=
  (r.conditions.flatMap (fun c => c.refs) ++ r.actions.flatMap (fun a => a.refs)).dedup

/-- Classes referenced by the rule's conditions. -/
def conditionRefs (r : GRule) : List String := r.conditions.flatMap (fun c => c.refs)

/-- Classes referenced by the rule's actions. -/
def actionRefs (r : GRule) : List String := r.actions.flatMap (fun a => a.refs)

/-- The derived `depends_on` relation of the specification, section 4.4:
rule `a` depends on rule `b` when some action of `b` references a fact type
that some condition of `a` also references. -/
def dependsOn (a b : GRule) : Prop :=
  ∃ t, t ∈ actionRefs b ∧ t ∈ conditionRefs a

instance (a b : GRule) : Decidable (dependsOn a b) := by
  unfold dependsOn
  exact List.decidableBEx _ _

/-! ### `find_circular_dependencies` -/

structure CycleRow where
  from_rule : String × String
  to_rule : String × String
  shared_classes : List String
  deriving DecidableEq, Repr

/-- The Cypher of `find_circular_dependencies`: pairs of distinct rules each
referencing two distinct shared classes `cl`, `cl2` (the `*1..2` hops reduce
to one hop, since condition and action nodes have no outgoing
`HAS_CONDITION`/`HAS_ACTION` edges); `RETURN DISTINCT` deduplicates rows. -/
def findCircularDependencies (g : Graph) : List CycleRow :=
  (g.flatMap (fun r1 => g.flatMap (fun r2 =>
    if r1.id ≠ r2.id then
      (allRefs r1).flatMap (fun cl =>
        (allRefs r1).filterMap (fun cl2 =>
          if cl ≠ cl2 ∧ cl ∈ allRefs r2 ∧ cl2 ∈ allRefs r2 then
            some ⟨(r1.name, r1.package), (r2.name, r2.package), [cl, cl2]⟩
          else none))
    else []))).dedup

/-! ### `find_complex_rules` -/

/-- The complexity score: conditions + constraints + actions + distinct
referenced classes. -/
def complexity (r : GRule) : Nat :=
  r.conditions.length + (r.conditions.map (fun c => c.constraints.length)).sum +
    r.actions.length + (allRefs r).length

/-- Ordering used by `ORDER BY total_complexity DESC`. -/
def complexityGE (a b : GRule) : Prop := complexity b ≤ complexity a

instance : DecidableRel complexityGE := fun a b => by
  unfold complexityGE; infer_instance

instance : IsTotal GRule complexityGE :=
  ⟨fun a b => (Nat.le_total (complexity b) (complexity a)).imp id id⟩

instance : IsTrans GRule complexityGE :=
  ⟨fun _ _ _ h1 h2 => le_trans h2 h1⟩

/-- `find_complex_rules`: the rules at or above the threshold, in descending
complexity order. -/
def findComplexRules (g : Graph) (threshold : Int) : List GRule :=
  (g.filter (fun r => threshold ≤ (complexity r : Int))).insertionSort complexityGE

/-! ### `find_conflicting_rules` -/

/-- `collect(DISTINCT {field, operator, value})` over all of a rule's
constraints. -/
def condTriples (r : GRule) : List (String × String × String) :=
  (r.conditions.flatMap (fun c => c.constraints)).dedup

/-- `collect(DISTINCT {type, target, method})` over a rule's actions. -/
def actTriples (r : GRule) : List (String × String × Option String) :=
  (r.actions.map (fun a => (a.type, a.target, a.method))).dedup

/-- The salience difference with the 999 sentinel for a missing salience. -/
def salienceDiff (r1 r2 : GRule) : Int :=
  match r1.salience, r2.salience with
  | some a, some b => |a - b|
  | _, _ => 999

/-- The conflict-type `CASE` of `find_conflicting_rules`, with its
alternatives in source order. -/
def classifyConflict (r1c r2c : List (String × String × String))
    (r1a r2a : List (String × String × Option String)) (sd : Int) : String :=
  if 0 < (r1c.filter (fun c => c ∈ r2c)).length ∧
      0 < (r1a.filter (fun a => a ∉ r2a)).length ∧ sd < 20 then
    "potential_action_conflict"
  else if 0 < (r1c.filter (fun c => c.1 ∈ r2c.map (fun c2 => c2.1))).length ∧
      sd < 20 then
    "potential_condition_overlap"
  else if 0 < (r1c.filter (fun c1 => r2c.any (fun c2 =>
      c1.1 == c2.1 && c1.2.1 != c2.2.1 && c1.2.2 == c2.2.2))).length then
    "contradictory_constraints"
  else if 0 < (r1a.filter (fun a => a ∈ r2a)).length ∧
      0 < (r1c.filter (fun c => c ∉ r2c)).length then
    "redundant_rules"
  else "same_fact_type"

structure ConflictRow where
  rule1 : String × String × Option Int
  rule2 : String × String × Option Int
  fact_type : String
  conflict_type : String
  salience_difference : Int
  r1_vars : List String
  r2_vars : List String
  deriving DecidableEq, Repr

/-- Fact types shared by the two rules' conditions (the grouping keys of the
first `WITH`). -/
def sharedFactTypes (r1 r2 : GRule) : List String :=
  ((r1.conditions.map (fun c => c.type)).filter
    (fun t => t ∈ r2.conditions.map (fun c => c.type))).dedup

/-- The priority used by the final `ORDER BY CASE conflict_type ...`. -/
def conflictPriority (ct : String) : Nat :=
  if ct = "contradictory_constraints" then 1
  else if ct = "potential_action_conflict" then 2
  else if ct = "potential_condition_overlap" then 3
  else if ct = "redundant_rules" then 4
  else 5

def conflictRowLE (a b : ConflictRow) : Prop :=
  conflictPriority a.conflict_type < conflictPriority b.conflict_type ∨
    (conflictPriority a.conflict_type = conflictPriority b.conflict_type ∧
      a.salience_difference ≤ b.salience_difference)

instance : DecidableRel conflictRowLE := fun a b => by
  unfold conflictRowLE; infer_instance

/-- One result row of `find_conflicting_rules` for a rule pair and one
shared fact type. -/
def mkConflictRow (r1 r2 : GRule) (ft : String) : ConflictRow :=
  { rule1 := (r1.name, r1.package, r1.salience)
    rule2 := (r2.name, r2.package, r2.salience)
    fact_type := ft
    conflict_type := classifyConflict (condTriples r1) (condTriples r2)
      (actTriples r1) (actTriples r2) (salienceDiff r1 r2)
    salience_difference := salienceDiff r1 r2
    r1_vars := ((r1.conditions.filter (fun c => c.type = ft)).map
      (fun c => c.var)).dedup
    r2_vars := ((r2.conditions.filter (fun c => c.type = ft)).map
      (fun c => c.var)).dedup }

/-- `find_conflicting_rules`: one row per rule pair (`id(r1) < id(r2)`) and
shared fact type, weak `same_fact_type` rows dropped unless the salience
difference is below 10, ordered by classification priority then salience
difference. -/
def findConflictingRules (g : Graph) : List ConflictRow :=
  ((g.flatMap (fun r1 => g.flatMap (fun r2 =>
    if r1.id < r2.id then (sharedFactTypes r1 r2).map (mkConflictRow r1 r2)
    else []))).filter
      (fun row => row.conflict_type ≠ "same_fact_type" ∨
        row.salience_difference < 10)).insertionSort conflictRowLE

/-! ### `analyze_execution_order`, second (annotation) pass -/

structure ExecRow where
  name : String
  package : String
  depends_on : List (String × String)
  deriving DecidableEq, Repr

structure AnnRow where
  row : ExecRow
  execution_status : String
  missing_dependencies : List (String × String)
  deriving DecidableEq, Repr

/-- The keys of `rule_map` (first pass over the result list). -/
def ruleKeys (results : List ExecRow) : List (String × String) :=
  results.map (fun r => (r.name, r.package))

/-- The dependencies a row is still waiting for: listed dependencies that
are not yet on the execution path but do occur in the result set. -/
def missingDeps (ruleMap path : List (String × String)) (r : ExecRow) :
    List (String × String) :=
  r.depends_on.filter (fun d => d ∉ path ∧ d ∈ ruleMap)

/-- The second pass of `analyze_execution_order`: walk the salience-ordered
rows, marking each `ready` or `waiting_for_dependencies`; only rows marked
ready extend the execution path. -/
def annotateGo (ruleMap : List (String × String)) :
    List ExecRow → List (String × String) → List AnnRow
  | [], _ => []
  | r :: rest, path =>
    let missing := missingDeps ruleMap path r
    if missing.isEmpty then
      ⟨r, "ready", []⟩ :: annotateGo ruleMap rest (path ++ [(r.name, r.package)])
    else
      ⟨r, "waiting_for_dependencies", missing⟩ :: annotateGo ruleMap rest path

def annotateExecutionOrder (results : List ExecRow) : List AnnRow :=
  annotateGo (ruleKeys results) results []

/-! ## Definitions used to state the claims -/

/-- A rule block the parser accepts ("well-formed" in the isolation
invariant's sense). -/
def ruleBlockParses (b : Chars) : Bool := (parseRuleBlock b).1.isSome

/-- The operator set named by the specification's Constraint description. -/
def claimedOperators : List Chars :=
  ["=", "==", "!=", "<", "<=", ">", ">=", "matches"].map String.toList

/-- Operators the constraint pattern can actually produce: a nonempty run
over `=`,`!`,`<`,`>`, or the literal `matches`. -/
def opOK (op : Chars) : Prop :=
  (op ≠ [] ∧ ∀ c ∈ op, isOpChar c = true) ∨ op = "matches".toList

/-- All constraints stored anywhere in a parsed model (rule and query
conditions are the only constraint owners). -/
def allConstraints (rf : RuleFileM) : List ConstraintM :=
  rf.rules.flatMap (fun r => r.conditions.flatMap (fun c => c.constraints)) ++
    rf.queries.flatMap (fun q => q.conditions.flatMap (fun c => c.constraints))

/-- Start index of the first `end_pattern` match in a rule block. -/
def endIdx (block : Chars) : Nat :=
  match searchM endM block with
  | some (i, _) => i
  | none => block.length

/-- End position of the first `then_pattern` match in a rule block. -/
def thenEndPos (block : Chars) : Nat :=
  match searchM thenM block with
  | some (_, rest) => block.length - rest.length
  | none => 0

/-- Append one constraint to condition `i` of a rule (out-of-range `i`
leaves the rule unchanged). -/
def addConstraintTo (r : GRule) (i : Nat) (k : String × String × String) : GRule :=
  { r with
    conditions :=
      r.conditions.modify (fun c => { c with constraints := c.constraints ++ [k] }) i }

/-- The execution path accumulated by the annotation pass over a prefix of
the result rows. -/
def pathUpTo (m : List (String × String)) :
    List ExecRow → List (String × String) → List (String × String)
  | [], path => path
  | r :: rest, path =>
    pathUpTo m rest
      (if (missingDeps m path r).isEmpty then path ++ [(r.name, r.package)] else path)

/-- First label whose condition holds ("first match wins"), defaulting to
`same_fact_type`. -/
def firstLabel : List (String × Bool) → String
  | [] => "same_fact_type"
  | (l, b) :: rest => if b then l else firstLabel rest

/-- The `potential_action_conflict` condition of the conflict `CASE`. -/
def condActionConflict (r1c r2c : List (String × String × String))
    (r1a r2a : List (String × String × Option String)) (sd : Int) : Bool :=
  decide (0 < (r1c.filter (fun c => c ∈ r2c)).length ∧
    0 < (r1a.filter (fun a => a ∉ r2a)).length ∧ sd < 20)

/-- The `potential_condition_overlap` condition. -/
def condOverlap (r1c r2c : List (String × String × String)) (sd : Int) : Bool :=
  decide (0 < (r1c.filter (fun c => c.1 ∈ r2c.map (fun c2 => c2.1))).length ∧ sd < 20)

/-- The `contradictory_constraints` condition. -/
def condContradictory (r1c r2c : List (String × String × String)) : Bool :=
  decide (0 < (r1c.filter (fun c1 => r2c.any (fun c2 =>
    c1.1 == c2.1 && c1.2.1 != c2.2.1 && c1.2.2 == c2.2.2))).length)

/-- The `redundant_rules` condition. -/
def condRedundant (r1c r2c : List (String × String × String))
    (r1a r2a : List (String × String × Option String)) : Bool :=
  decide (0 < (r1a.filter (fun a => a ∈ r2a)).length ∧
    0 < (r1c.filter (fun c => c ∉ r2c)).length)

/-! ## Concrete inputs for the scenarios -/

/-- Scenario A input. -/
def scenarioAText : Chars :=
  "rule \"R1\" when $c : Customer(age > 18) then $c.approve(); end".toList

/-- The rule the parser produces for Scenario A. -/
def scenarioARule : RuleM :=
  { name := "R1".toList
    extendsName := none
    salience := none
    conditions := [⟨"c".toList, "Customer".toList,
      [⟨"age".toList, ">".toList, "18".toList⟩]⟩]
    actions := [⟨"method_call".toList, "$c".toList, some "approve".toList, []⟩]
    attributes := [] }

/-- Scenario D rules: contradictory `status` constraints on `Order`,
salience difference 5. -/
def c2ruleA : GRule :=
  { id := 0, name := "RuleA", package := "p", salience := some 10
    conditions := [⟨"$o", "Order", [("status", "==", "NEW")], ["Order"]⟩]
    actions := [⟨"method_call", "$o", some "approve", ["Order"]⟩] }

def c2ruleB : GRule :=
  { id := 1, name := "RuleB", package := "p", salience := some 5
    conditions := [⟨"$o", "Order", [("status", "!=", "NEW")], ["Order"]⟩]
    actions := [⟨"method_call", "$o", some "reject", ["Order"]⟩] }

def c2Graph : Graph := [c2ruleA, c2ruleB]

/-- A file with two well-formed rules around one malformed rule (missing
`then`). -/
def c3Text : Chars :=
  ("package p;\nrule \"A\"\nwhen\n  $x : T()\nthen\n  x.a();\nend\n" ++
   "rule \"BAD\"\nwhen\n  $y : U()\nend\n" ++
   "rule \"C\"\nwhen\n  $z : V()\nthen\n  z.c();\nend").toList

/-- Two single-character files, each of whose parses records exactly one
missing-package diagnostic. -/
def c4FileX : Chars := "x".toList
def c4FileY : Chars := "y".toList

/-- Two rules that mutually depend on each other through the single fact
type `T` (each conditions on `T` and each action touches `T`). -/
def c5ruleA : GRule :=
  { id := 0, name := "A", package := "p", salience := none
    conditions := [⟨"$t", "T", [], ["T"]⟩]
    actions := [⟨"method_call", "$t", some "m", ["T"]⟩] }

def c5ruleB : GRule :=
  { id := 1, name := "B", package := "p", salience := none
    conditions := [⟨"$u", "T", [], ["T"]⟩]
    actions := [⟨"method_call", "$u", some "n", ["T"]⟩] }

def c5Graph : Graph := [c5ruleA, c5ruleB]

/-- A two-fact-type mutual dependency used to witness the amended cycle
claim. -/
def c5ruleA2 : GRule :=
  { id := 0, name := "A2", package := "p", salience := none
    conditions := [⟨"$t", "T1", [], ["T1"]⟩]
    actions := [⟨"method_call", "$t", some "m", ["T2"]⟩] }

def c5ruleB2 : GRule :=
  { id := 1, name := "B2", package := "p", salience := none
    conditions := [⟨"$u", "T2", [], ["T2"]⟩]
    actions := [⟨"method_call", "$u", some "n", ["T1"]⟩] }

def c5Graph2 : Graph := [c5ruleA2, c5ruleB2]

/-- Execution rows: the first rule lists a dependency absent from the
result set, the second depends on the first. -/
def c6rowA : ExecRow := ⟨"A", "p", [("Z", "p")]⟩
def c6rowB : ExecRow := ⟨"B", "p", [("A", "p")]⟩
def c6rows : List ExecRow := [c6rowA, c6rowB]

/-- A rule whose constraint uses the unconventional operator `=<`. -/
def c7Text : Chars :=
  "rule \"R\" when $c : Customer(age =< 18) then x = 1 end".toList

/-- The rule block of a child rule with an `extends` clause. -/
def c9Block : Chars :=
  "rule \"Child\" extends \"Base\"\nwhen\n  $c : T()\nthen\n  $c.go();\nend".toList

/-- The rule the parser produces for `c9Block`. -/
def c9Rule : RuleM :=
  { name := "Child".toList
    extendsName := some "Base".toList
    salience := none
    conditions := [⟨"c".toList, "T".toList, []⟩]
    actions := []
    attributes := [] }

/-- A file holding exactly one well-formed function construct. -/
def c10Text : Chars :=
  "function int add(int a, int b) \x7b return a + b; \x7d".toList

/-! # Lemmas -/

set_option maxRecDepth 4000

theorem trim_nil_all_ws {s : Chars} (h : trim s = []) : ∀ c ∈ s, isWs c = true := by
  intro c hc
  unfold trim trimL at h
  rw [List.reverse_eq_nil_iff, List.dropWhile_eq_nil_iff] at h
  have hall : ∀ x ∈ s.dropWhile (fun c => isWs c), isWs x = true := by
    intro x hx
    exact h x (List.mem_reverse.mpr hx)
  have hsplit : s.takeWhile (fun c => isWs c) ++ s.dropWhile (fun c => isWs c) = s :=
    List.takeWhile_append_dropWhile _ _
  rw [← hsplit] at hc
  rcases List.mem_append.mp hc with h1 | h2
  · exact List.mem_takeWhile_imp h1
  · exact hall c h2

theorem splitOnChar_ne_nil (sep : Char) : ∀ s : Chars, splitOnChar sep s ≠ [] := by
  intro s
  induction s with
  | nil => simp [splitOnChar]
  | cons a rest ih =>
    simp only [splitOnChar]
    by_cases ha : a = sep
    · simp [ha]
    · simp only [ha, if_false]
      rcases hrest : splitOnChar sep rest with _ | ⟨h0, t⟩
      · simp
      · simp

theorem mem_splitOnChar (sep : Char) :
    ∀ (s l : Chars), l ∈ splitOnChar sep s → ∀ c ∈ l, c ∈ s := by
  intro s
  induction s with
  | nil =>
    intro l hl c hc
    simp [splitOnChar] at hl
    subst hl
    simp at hc
  | cons a rest ih =>
    intro l hl c hc
    simp only [splitOnChar] at hl
    by_cases ha : a = sep
    · simp only [ha, if_true] at hl
      rcases List.mem_cons.mp hl with h | h
      · subst h; simp at hc
      · exact List.mem_cons_of_mem _ (ih l h c hc)
    · simp only [ha, if_false] at hl
      rcases hrest : splitOnChar sep rest with _ | ⟨h0, t⟩
      · exact absurd hrest (splitOnChar_ne_nil sep rest)
      · rw [hrest] at hl
        rcases List.mem_cons.mp hl with h | h
        · subst h
          rcases List.mem_cons.mp hc with h | h
          · rw [h]; exact List.mem_cons_self _ _
          · refine List.mem_cons_of_mem _ (ih h0 ?_ c h)
            rw [hrest]; exact List.mem_cons_self h0 t
        · exact List.mem_cons_of_mem _ (ih l (by rw [hrest]; exact List.mem_cons_of_mem _ h) c hc)

theorem dropLit_head_ne {p c : Char} {ps cs : Chars} (h : p ≠ c) :
    dropLit (p :: ps) (c :: cs) = none := by
  simp [dropLit, h]

theorem ruleNameM_all_ws {line : Chars} (h : ∀ c ∈ line, isWs c = true) :
    ruleNameM line = none := by
  cases line with
  | nil => rfl
  | cons c rest =>
    have hc := h c (List.mem_cons_self c rest)
    have hcr : 'r' ≠ c := by
      intro he
      rw [← he] at hc
      exact absurd hc (by decide)
    show lit "rule".toList _ (c :: rest) = none
    rw [show ("rule".toList : Chars) = 'r' :: ['u', 'l', 'e'] from rfl]
    unfold lit
    rw [dropLit_head_ne hcr]

theorem functionM_all_ws {line : Chars} (h : ∀ c ∈ line, isWs c = true) :
    functionM line = none := by
  cases line with
  | nil => rfl
  | cons c rest =>
    have hc := h c (List.mem_cons_self c rest)
    have hcr : 'f' ≠ c := by
      intro he
      rw [← he] at hc
      exact absurd hc (by decide)
    show lit "function".toList _ (c :: rest) = none
    rw [show ("function".toList : Chars) = 'f' :: ['u', 'n', 'c', 't', 'i', 'o', 'n'] from rfl]
    unfold lit
    rw [dropLit_head_ne hcr]

theorem extractBlocksRule_ws :
    ∀ (lines : List Chars), (∀ l ∈ lines, ∀ c ∈ l, isWs c = true) →
      extractBlocksRule lines [] false = [] := by
  intro lines
  induction lines with
  | nil => intro _; rfl
  | cons l rest ih =>
    intro h
    have h1 : ruleNameM l = none := ruleNameM_all_ws (h l (List.mem_cons_self l rest))
    have h2 := ih (fun l2 hl2 => h l2 (List.mem_cons_of_mem l hl2))
    simp [extractBlocksRule, h1, h2]

theorem extractBlocksFunction_ws :
    ∀ (lines : List Chars), (∀ l ∈ lines, ∀ c ∈ l, isWs c = true) →
      extractBlocksFunction lines [] false 0 = [] := by
  intro lines
  induction lines with
  | nil => intro _; rfl
  | cons l rest ih =>
    intro h
    have h1 : functionM l = none := functionM_all_ws (h l (List.mem_cons_self l rest))
    have h2 := ih (fun l2 hl2 => h l2 (List.mem_cons_of_mem l hl2))
    simp [extractBlocksFunction, h1, h2]

theorem extractRuleBlocks_of_trim_nil {content : Chars} (h : trim content = []) :
    extractRuleBlocks content = [] := by
  apply extractBlocksRule_ws
  intro l hl c hc
  exact trim_nil_all_ws h c (mem_splitOnChar '\n' content l hl c hc)

theorem extractBlocksFunction_of_trim_nil {content : Chars} (h : trim content = []) :
    extractBlocksFunction (splitOnChar '\n' content) [] false 0 = [] := by
  apply extractBlocksFunction_ws
  intro l hl c hc
  exact trim_nil_all_ws h c (mem_splitOnChar '\n' content l hl c hc)

theorem ruleFold_length (blocks : List Chars) :
    ∀ acc : List RuleM × List DiagCat,
      ((blocks.foldl ruleBlockStep acc).1.length =
          acc.1.length + (blocks.filter ruleBlockParses).length) ∧
        acc.2.length + (blocks.filter (fun b => !ruleBlockParses b)).length ≤
          (blocks.foldl ruleBlockStep acc).2.length := by
  induction blocks with
  | nil => intro acc; simp
  | cons b bs ih =>
    intro acc
    rcases hpb : parseRuleBlock b with ⟨or, ds⟩
    cases or with
    | some r =>
      have hp : ruleBlockParses b = true := by simp [ruleBlockParses, hpb]
      have hstep : ruleBlockStep acc b = (acc.1 ++ [r], acc.2 ++ ds) := by
        simp [ruleBlockStep, hpb]
      obtain ⟨ih1, ih2⟩ := ih (acc.1 ++ [r], acc.2 ++ ds)
      rw [List.foldl_cons, hstep]
      have hgood : List.filter ruleBlockParses (b :: bs) =
          b :: List.filter ruleBlockParses bs := List.filter_cons_of_pos hp
      have hbadf : List.filter (fun x => !ruleBlockParses x) (b :: bs) =
          List.filter (fun x => !ruleBlockParses x) bs :=
        List.filter_cons_of_neg (by simp [hp])
      constructor
      · rw [ih1, hgood]
        simp [List.length_append]
        omega
      · rw [hbadf]
        refine le_trans ?_ ih2
        simp [List.length_append]
    | none =>
      have hp : ruleBlockParses b = false := by simp [ruleBlockParses, hpb]
      have hstep : ruleBlockStep acc b = (acc.1, acc.2 ++ ds ++ [DiagCat.rule]) := by
        simp [ruleBlockStep, hpb]
      obtain ⟨ih1, ih2⟩ := ih (acc.1, acc.2 ++ ds ++ [DiagCat.rule])
      rw [List.foldl_cons, hstep]
      have hgood : List.filter ruleBlockParses (b :: bs) =
          List.filter ruleBlockParses bs :=
        List.filter_cons_of_neg (by simp [hp])
      have hbadf : List.filter (fun x => !ruleBlockParses x) (b :: bs) =
          b :: List.filter (fun x => !ruleBlockParses x) bs :=
        List.filter_cons_of_pos (by simp [hp])
      constructor
      · rw [ih1, hgood]
      · rw [hbadf]
        refine le_trans ?_ ih2
        simp [List.length_append]
        omega

theorem parseContent_rules_eq {text : Chars} (hne : ¬ ((trim text).isEmpty = true)) :
    (parseContent text).1.rules =
      (List.foldl ruleBlockStep ([], []) (extractRuleBlocks text)).1 := by
  unfold parseContent
  rw [if_neg hne]
  rfl

theorem parseContent_diags_split {text : Chars} (hne : ¬ ((trim text).isEmpty = true)) :
    ∃ pre : List DiagCat,
      (parseContent text).2 =
        pre ++ ((List.foldl ruleBlockStep ([], []) (extractRuleBlocks text)).2 ++
          (parseQueries text).2 ++ (parseFunctions text).2) := by
  cases hpm : searchM packageM text with
  | none =>
    refine ⟨[DiagCat.file], ?_⟩
    unfold parseContent
    rw [if_neg hne, hpm]
    rfl
  | some p =>
    rcases p with ⟨i, raw, rest⟩
    refine ⟨[], ?_⟩
    unfold parseContent
    rw [if_neg hne, hpm]
    rfl

/-- C3: for every file text whose extracted rule blocks consist of exactly
one malformed block (its parse fails) among K well-formed blocks, parsing
the text yields exactly K Rule values in the resulting model and at least
one recorded diagnostic: the malformed block neither discards already
parsed sibling rules nor prevents parsing of subsequent ones. -/
theorem c3_isolation (text : Chars) (K : Nat)
    (hgood : ((extractRuleBlocks text).filter ruleBlockParses).length = K)
    (hbad : ((extractRuleBlocks text).filter (fun b => !ruleBlockParses b)).length = 1) :
    (parseContent text).1.rules.length = K ∧ 1 ≤ (parseContent text).2.length := by
  have hne : ¬ ((trim text).isEmpty = true) := by
    intro he
    rw [extractRuleBlocks_of_trim_nil (List.isEmpty_iff.mp he)] at hbad
    simp at hbad
  obtain ⟨h1, h2⟩ := ruleFold_length (extractRuleBlocks text) ([], [])
  constructor
  · rw [parseContent_rules_eq hne, h1, hgood]
    simp
  · obtain ⟨pre, hd⟩ := parseContent_diags_split hne
    rw [hd]
    rw [hbad] at h2
    simp only [List.length_append]
    simp only [List.length_nil] at h2
    omega

/-- Witness for C3 at a file with two well-formed rules around one rule
missing its `then` section. -/
theorem c3_isolation_witness :
    (((extractRuleBlocks c3Text).filter ruleBlockParses).length = 2 ∧
      ((extractRuleBlocks c3Text).filter (fun b => !ruleBlockParses b)).length = 1) ∧
    ((parseContent c3Text).1.rules.length = 2 ∧ 1 ≤ (parseContent c3Text).2.length) :=
  ⟨⟨by decide, by decide⟩, c3_isolation c3Text 2 (by decide) (by decide)⟩

theorem runHOps_records (ds : List α) : ∀ s : List α, runHOps (ds.map HOp.record) s = s ++ ds := by
  induction ds with
  | nil => intro s; simp [runHOps]
  | cons d rest ih =>
    intro s
    simp only [List.map_cons, runHOps, List.foldl_cons]
    have := ih (s ++ [d])
    simp only [runHOps] at this
    rw [show applyHOp s (HOp.record d) = s ++ [d] from rfl, this]
    simp

theorem runHOps_parseFileOps (ds : List α) (s : List α) :
    runHOps (parseFileOps ds) s = ds := by
  simp only [parseFileOps, runHOps, List.foldl_cons]
  have := runHOps_records ds []
  simp only [runHOps] at this
  rw [show applyHOp s (HOp.reset : HOp α) = [] from rfl, this]
  simp

theorem runHOps_flatMap_files (files : List (List α)) :
    ∀ s : List α, runHOps (files.flatMap parseFileOps) s = files.getLastD s := by
  induction files with
  | nil => intro s; simp [runHOps]
  | cons f fs ih =>
    intro s
    simp only [List.flatMap_cons]
    have happ : runHOps (parseFileOps f ++ fs.flatMap parseFileOps) s =
        runHOps (fs.flatMap parseFileOps) (runHOps (parseFileOps f) s) := by
      simp [runHOps, List.foldl_append]
    rw [happ, runHOps_parseFileOps, ih f, List.getLastD_cons]

/-- C4 counterexample: a directory parse over two one-character files (each
contributing one missing-package diagnostic) ends with only the second
file's diagnostic, because the nested `parse_file` calls reset the handler
again; the first file's diagnostic is removed before the top-level
operation returns. -/
theorem c4_counterexample :
    runHOps (parseDirectoryTrace [c4FileX, c4FileY]) [] = [DiagCat.file] ∧
    (parseContent c4FileX).2 ++ (parseContent c4FileY).2 =
      [DiagCat.file, DiagCat.file] ∧
    ([DiagCat.file] : List DiagCat) ≠ [DiagCat.file, DiagCat.file] := by
  refine ⟨by decide, by decide, by decide⟩

/-- C4 amended: the diagnostics store is cleared at the start of every
`parse_file` call — including each per-file call nested inside
`parse_directory` — and only appended to between clears.  A single-file
parse therefore returns exactly its own diagnostics, while a directory
parse ends holding only the diagnostics of its last file. -/
theorem c4_amended :
    (∀ (content : Chars) (s : List DiagCat),
      runHOps (parseFileTrace content) s = (parseContent content).2) ∧
    (∀ (contents : List Chars) (s : List DiagCat),
      runHOps (parseDirectoryTrace contents) s =
        (contents.map (fun c => (parseContent c).2)).getLastD []) := by
  constructor
  · intro content s
    exact runHOps_parseFileOps _ s
  · intro contents s
    have hflat : contents.flatMap parseFileTrace =
        (contents.map (fun c => (parseContent c).2)).flatMap parseFileOps := by
      induction contents with
      | nil => rfl
      | cons c cs ih => simp only [List.flatMap_cons, List.map_cons, ih]; rfl
    simp only [parseDirectoryTrace, runHOps, List.foldl_cons]
    rw [show applyHOp s (HOp.reset : HOp DiagCat) = [] from rfl]
    have := runHOps_flatMap_files (contents.map (fun c => (parseContent c).2)) []
    simp only [runHOps] at this
    rw [show contents.flatMap parseFileTrace =
      (contents.map (fun c => (parseContent c).2)).flatMap parseFileOps from hflat, this]

/-- C1 counterexample: Scenario A parses to one rule `R1` with condition
variable `c`, type `Customer`, constraint (`age`,`>`,`18`) and one
method-call action calling `approve` with no arguments — but the action's
target is the raw receiver `$c`: the `$` prefix is stripped only from
condition variables, not from action targets, so the claimed target `c` is
wrong. -/
theorem c1_counterexample :
    (parseContent scenarioAText).1.rules = [scenarioARule] ∧
    scenarioARule.actions.map (fun a => a.target) = ["$c".toList] ∧
    ("$c".toList : Chars) ≠ "c".toList :=
  ⟨by decide, by decide, by decide⟩

/-- C1 amended: parsing Scenario A produces exactly one Rule named `R1`
with one Condition (variable `c`, `$` stripped; type `Customer`; single
constraint (`age`,`>`,`18`)) and one method-call Action with target `$c`
(receiver expression kept verbatim), method `approve` and no arguments. -/
theorem c1_amended :
    (parseContent scenarioAText).1.rules = [scenarioARule] := by decide

/-- C2 counterexample: for the Scenario D pair (shared fact type `Order`,
`status == "NEW"` versus `status != "NEW"`, salience difference 5) the
contradictory-constraints condition holds, yet `find_conflicting_rules`
labels the pair `potential_condition_overlap`, because its `CASE` checks
the overlap condition before the contradictory one. -/
theorem c2_counterexample :
    (findConflictingRules c2Graph).map (fun row => row.conflict_type) =
      ["potential_condition_overlap"] ∧
    condContradictory (condTriples c2ruleA) (condTriples c2ruleB) = true ∧
    ("potential_condition_overlap" : String) ≠ "contradictory_constraints" :=
  ⟨by decide, by decide, by decide⟩

theorem firstLabel_true (l : String) (rest : List (String × Bool)) :
    firstLabel ((l, true) :: rest) = l := rfl

theorem firstLabel_false (l : String) (rest : List (String × Bool)) :
    firstLabel ((l, false) :: rest) = firstLabel rest := rfl

/-- C2 amended: the classification is first-match-wins in the source's
`CASE` order — `potential_action_conflict`, then
`potential_condition_overlap`, then `contradictory_constraints`, then
`redundant_rules`, else `same_fact_type` — and the Scenario D pair is
classified `potential_condition_overlap`. -/
theorem c2_amended :
    (∀ (r1c r2c : List (String × String × String))
        (r1a r2a : List (String × String × Option String)) (sd : Int),
      classifyConflict r1c r2c r1a r2a sd =
        firstLabel
          [("potential_action_conflict", condActionConflict r1c r2c r1a r2a sd),
           ("potential_condition_overlap", condOverlap r1c r2c sd),
           ("contradictory_constraints", condContradictory r1c r2c),
           ("redundant_rules", condRedundant r1c r2c r1a r2a)]) ∧
    (findConflictingRules c2Graph).map (fun row => row.conflict_type) =
      ["potential_condition_overlap"] := by
  constructor
  · intro r1c r2c r1a r2a sd
    unfold classifyConflict
    cases hb1 : condActionConflict r1c r2c r1a r2a sd with
    | true =>
      have hP := of_decide_eq_true (show _ = true from hb1)
      rw [firstLabel_true, if_pos hP]
    | false =>
      have hP := of_decide_eq_false (show _ = false from hb1)
      rw [firstLabel_false, if_neg hP]
      cases hb2 : condOverlap r1c r2c sd with
      | true =>
        have hQ := of_decide_eq_true (show _ = true from hb2)
        rw [firstLabel_true, if_pos hQ]
      | false =>
        have hQ := of_decide_eq_false (show _ = false from hb2)
        rw [firstLabel_false, if_neg hQ]
        cases hb3 : condContradictory r1c r2c with
        | true =>
          have hR := of_decide_eq_true (show _ = true from hb3)
          rw [firstLabel_true, if_pos hR]
        | false =>
          have hR := of_decide_eq_false (show _ = false from hb3)
          rw [firstLabel_false, if_neg hR]
          cases hb4 : condRedundant r1c r2c r1a r2a with
          | true =>
            have hS := of_decide_eq_true (show _ = true from hb4)
            rw [firstLabel_true, if_pos hS]
          | false =>
            have hS := of_decide_eq_false (show _ = false from hb4)
            rw [firstLabel_false, if_neg hS]
            rfl
  · decide

/-- C5 counterexample: two rules that mutually depend on each other through
the single fact type `T` are reported in no cycle row, because the Cypher
requires two distinct shared classes (`id(cl) <> id(cl2)`). -/
theorem c5_counterexample :
    dependsOn c5ruleA c5ruleB ∧ dependsOn c5ruleB c5ruleA ∧
    findCircularDependencies c5Graph = [] := by decide

/-- C5 amended: whenever `depends_on(A→B)` and `depends_on(B→A)` hold
through two distinct fact types (the type witnessing one direction differs
from the type witnessing the other), the pair appears together in at least
one circular-dependency report; with a single shared fact type the pair is
not reported. -/
theorem c5_amended (g : Graph) (A B : GRule) (t1 t2 : String)
    (hA : A ∈ g) (hB : B ∈ g) (hid : A.id ≠ B.id) (hne : t1 ≠ t2)
    (h1a : t1 ∈ actionRefs B) (h1c : t1 ∈ conditionRefs A)
    (h2a : t2 ∈ actionRefs A) (h2c : t2 ∈ conditionRefs B) :
    ∃ row ∈ findCircularDependencies g,
      row.from_rule = (A.name, A.package) ∧ row.to_rule = (B.name, B.package) := by
  have ht1A : t1 ∈ allRefs A := by
    unfold allRefs
    rw [List.mem_dedup]
    exact List.mem_append_left _ h1c
  have ht2A : t2 ∈ allRefs A := by
    unfold allRefs
    rw [List.mem_dedup]
    exact List.mem_append_right _ h2a
  have ht1B : t1 ∈ allRefs B := by
    unfold allRefs
    rw [List.mem_dedup]
    exact List.mem_append_right _ h1a
  have ht2B : t2 ∈ allRefs B := by
    unfold allRefs
    rw [List.mem_dedup]
    exact List.mem_append_left _ h2c
  refine ⟨⟨(A.name, A.package), (B.name, B.package), [t1, t2]⟩, ?_, rfl, rfl⟩
  unfold findCircularDependencies
  rw [List.mem_dedup, List.mem_flatMap]
  refine ⟨A, hA, ?_⟩
  rw [List.mem_flatMap]
  refine ⟨B, hB, ?_⟩
  rw [if_pos hid, List.mem_flatMap]
  refine ⟨t1, ht1A, ?_⟩
  rw [List.mem_filterMap]
  refine ⟨t2, ht2A, ?_⟩
  rw [if_pos ⟨hne, ht1B, ht2B⟩]

/-- Witness for the amended C5 at a two-fact-type mutual dependency. -/
theorem c5_amended_witness :
    ∃ row ∈ findCircularDependencies c5Graph2,
      row.from_rule = (c5ruleA2.name, c5ruleA2.package) ∧
      row.to_rule = (c5ruleB2.name, c5ruleB2.package) :=
  c5_amended c5Graph2 c5ruleA2 c5ruleB2 "T1" "T2" (by decide) (by decide)
    (by decide) (by decide) (by decide) (by decide) (by decide) (by decide)

/-- C6 counterexample: the first row lists a dependency `Z` that never
appears in the walk, yet the annotation pass marks the row `ready` with no
missing dependencies, because dependencies absent from the analyzed result
set are ignored — the claim would mark it `waiting_for_dependencies` with
`Z` listed. -/
theorem c6_counterexample :
    annotateExecutionOrder c6rows =
      [⟨c6rowA, "ready", []⟩, ⟨c6rowB, "ready", []⟩] ∧
    ("Z", "p") ∈ c6rowA.depends_on ∧
    (("Z", "p") : String × String) ∉ ruleKeys c6rows :=
  ⟨by decide, by decide, by decide⟩

theorem annotateGo_cons (m : List (String × String)) (r : ExecRow)
    (rest : List ExecRow) (path : List (String × String)) :
    annotateGo m (r :: rest) path =
      if (missingDeps m path r).isEmpty then
        (⟨r, "ready", []⟩ : AnnRow) ::
          annotateGo m rest (path ++ [(r.name, r.package)])
      else
        (⟨r, "waiting_for_dependencies", missingDeps m path r⟩ : AnnRow) ::
          annotateGo m rest path := rfl

theorem annotateGo_map_row (m : List (String × String)) :
    ∀ (rows : List ExecRow) (path : List (String × String)),
      (annotateGo m rows path).map (fun a => a.row) = rows := by
  intro rows
  induction rows with
  | nil => intro path; rfl
  | cons r rest ih =>
    intro path
    rw [annotateGo_cons]
    by_cases h : (missingDeps m path r).isEmpty
    · rw [if_pos h]
      simp [ih]
    · rw [if_neg h]
      simp [ih]

theorem annotateGo_get? (m : List (String × String)) :
    ∀ (rows : List ExecRow) (path : List (String × String)) (i : Nat),
      (annotateGo m rows path).get? i =
        (rows.get? i).map (fun r =>
          (⟨r,
            if (missingDeps m (pathUpTo m (rows.take i) path) r).isEmpty
              then "ready" else "waiting_for_dependencies",
            missingDeps m (pathUpTo m (rows.take i) path) r⟩ : AnnRow)) := by
  intro rows
  induction rows with
  | nil => intro path i; rfl
  | cons r rest ih =>
    intro path i
    rw [annotateGo_cons]
    by_cases hm : (missingDeps m path r).isEmpty
    · rw [if_pos hm]
      cases i with
      | zero =>
        have hnil : missingDeps m path r = [] := List.isEmpty_iff.mp hm
        simp [pathUpTo, hnil]
      | succ n =>
        have hpath : pathUpTo m ((r :: rest).take (n + 1)) path =
            pathUpTo m (rest.take n) (path ++ [(r.name, r.package)]) := by
          show pathUpTo m (rest.take n)
            (if (missingDeps m path r).isEmpty then path ++ [(r.name, r.package)]
              else path) = _
          rw [if_pos hm]
        simp only [List.get?_cons_succ, hpath]
        exact ih (path ++ [(r.name, r.package)]) n
    · rw [if_neg hm]
      cases i with
      | zero =>
        have hne : ¬ (missingDeps m path r = []) := by
          intro h0
          exact hm (by rw [h0]; rfl)
        simp [pathUpTo, hne]
      | succ n =>
        have hpath : pathUpTo m ((r :: rest).take (n + 1)) path =
            pathUpTo m (rest.take n) path := by
          show pathUpTo m (rest.take n)
            (if (missingDeps m path r).isEmpty then path ++ [(r.name, r.package)]
              else path) = _
          rw [if_neg hm]
        simp only [List.get?_cons_succ, hpath]
        exact ih path n

/-- C6 amended: the annotation pass keeps the list's order and membership,
and marks row `i` `ready` exactly when it has no listed dependency that
both occurs in the analyzed result set and is missing from the path of
previously ready rules; otherwise it is `waiting_for_dependencies` with
exactly those dependencies listed (dependencies outside the result set are
ignored, and rules that appeared earlier but were themselves waiting do not
satisfy a dependency). -/
theorem c6_amended (results : List ExecRow) :
    (annotateExecutionOrder results).map (fun a => a.row) = results ∧
    ∀ i : Nat,
      (annotateExecutionOrder results).get? i =
        (results.get? i).map (fun r =>
          (⟨r,
            if (missingDeps (ruleKeys results)
                (pathUpTo (ruleKeys results) (results.take i) []) r).isEmpty
              then "ready" else "waiting_for_dependencies",
            missingDeps (ruleKeys results)
              (pathUpTo (ruleKeys results) (results.take i) []) r⟩ : AnnRow)) := by
  constructor
  · exact annotateGo_map_row (ruleKeys results) results []
  · intro i
    exact annotateGo_get? (ruleKeys results) results [] i

theorem sum_map_modify_le {α : Type} (g : α → Nat) (f : α → α)
    (hf : ∀ a, g a ≤ g (f a)) :
    ∀ (l : List α) (i : Nat), (l.map g).sum ≤ ((l.modify f i).map g).sum := by
  intro l
  induction l with
  | nil => intro i; cases i <;> rfl
  | cons a rest ih =>
    intro i
    cases i with
    | zero =>
      show (g a + (rest.map g).sum) ≤ (g (f a) + (rest.map g).sum)
      exact Nat.add_le_add_right (hf a) _
    | succ n =>
      show (g a + (rest.map g).sum) ≤ (g a + ((rest.modify f n).map g).sum)
      exact Nat.add_le_add_left (ih n) _

theorem flatMap_modify_eq {α β : Type} (g : α → List β) (f : α → α)
    (hf : ∀ a, g (f a) = g a) :
    ∀ (l : List α) (i : Nat), (l.modify f i).flatMap g = l.flatMap g := by
  intro l
  induction l with
  | nil => intro i; cases i <;> rfl
  | cons a rest ih =>
    intro i
    cases i with
    | zero =>
      show g (f a) ++ rest.flatMap g = g a ++ rest.flatMap g
      rw [hf a]
    | succ n =>
      show g a ++ (rest.modify f n).flatMap g = g a ++ rest.flatMap g
      rw [ih n]

theorem complexity_addConstraintTo (r : GRule) (i : Nat)
    (k : String × String × String) :
    complexity r ≤ complexity (addConstraintTo r i k) := by
  unfold complexity addConstraintTo allRefs
  simp only [List.length_modify]
  have h1 : ((r.conditions.map (fun c => c.constraints.length)).sum ≤
      (((r.conditions.modify
        (fun c => { c with constraints := c.constraints ++ [k] }) i).map
        (fun c => c.constraints.length)).sum)) := by
    apply sum_map_modify_le
    intro a
    simp
  have h2 : ((r.conditions.modify
      (fun c => { c with constraints := c.constraints ++ [k] }) i).flatMap
      (fun c => c.refs)) = r.conditions.flatMap (fun c => c.refs) := by
    apply flatMap_modify_eq
    intro a
    rfl
  rw [h2]
  omega

/-- C8: the complexity score (conditions + constraints + actions + distinct
referenced fact types) never decreases when a constraint is appended to any
condition, and `find_complex_rules` returns exactly the rules at or above
the threshold, sorted by descending complexity. -/
theorem c8_complexity (g : Graph) (threshold : Int) (r : GRule) (i : Nat)
    (k : String × String × String) (r' : GRule) :
    complexity r ≤ complexity (addConstraintTo r i k) ∧
    (r' ∈ findComplexRules g threshold ↔
      r' ∈ g ∧ threshold ≤ (complexity r' : Int)) ∧
    (findComplexRules g threshold).Sorted complexityGE := by
  refine ⟨complexity_addConstraintTo r i k, ?_, ?_⟩
  · unfold findComplexRules
    rw [(List.perm_insertionSort complexityGE _).mem_iff, List.mem_filter]
    simp
  · exact List.sorted_insertionSort complexityGE _

theorem parseActions_nil : parseActions [] = [] := by decide

/-- C9: for every rule block that parses successfully, whose header carries
an `extends` clause, and in which the first `end` substring occurrence lies
no later than the end of the first `then` match (as it always does when the
extends clause precedes the `when`/`then` sections, since `extends`
contains the substring `end`), the parsed rule keeps the quoted parent in
`extends` but has an empty actions list: the `end`-marker search truncates
the then-text to the empty string. -/
theorem c9_extends (block : Chars) (r : RuleM) (ds : List DiagCat) (parent : Chars)
    (hparse : parseRuleBlock block = (some r, ds))
    (hext : (searchM extendsM block).map (fun p => p.2.1) = some parent)
    (hpos : endIdx block ≤ thenEndPos block) :
    r.extendsName = some parent ∧ r.actions = [] := by
  unfold parseRuleBlock at hparse
  cases hname : searchM ruleNameM block with
  | none => rw [hname] at hparse; cases hparse
  | some pn =>
    rcases pn with ⟨ni, nm, nrest⟩
    rw [hname] at hparse
    cases hextM : searchM extendsM block with
    | none => rw [hextM] at hext; cases hext
    | some pe =>
      rcases pe with ⟨ei, ep, er⟩
      rw [hextM] at hext hparse
      have hparent : ep = parent := by
        simpa using hext
      cases hw : searchM whenM block with
      | none =>
        rw [hw] at hparse
        cases hsal : searchM salienceM block <;> rw [hsal] at hparse <;> cases hparse
      | some pw =>
        rcases pw with ⟨wi, wRest⟩
        cases ht : searchM thenM block with
        | none =>
          rw [hw, ht] at hparse
          cases hsal : searchM salienceM block <;> rw [hsal] at hparse <;> cases hparse
        | some pt =>
          rcases pt with ⟨tIdx, tRest⟩
          cases he : searchM endM block with
          | none =>
            rw [hw, ht, he] at hparse
            cases hsal : searchM salienceM block <;> rw [hsal] at hparse <;>
              cases hparse
          | some pe2 =>
            rcases pe2 with ⟨eIdx, eRest⟩
            have htake : eIdx - (block.length - tRest.length) = 0 := by
              have h1 : endIdx block = eIdx := by unfold endIdx; rw [he]
              have h2 : thenEndPos block = block.length - tRest.length := by
                unfold thenEndPos; rw [ht]
              omega
            rw [hw, ht, he] at hparse
            cases hsal : searchM salienceM block <;> rw [hsal] at hparse <;>
              [skip; skip] <;>
            · rw [Prod.mk.injEq] at hparse
              obtain ⟨h1, _⟩ := hparse
              rw [Option.some.injEq] at h1
              subst h1
              refine ⟨by rw [hparent], ?_⟩
              show parseActions ((block.drop _).take
                (eIdx - (block.length - tRest.length))) = []
              rw [htake]
              simpa using parseActions_nil

/-- Witness for C9 at a concrete child rule extending `Base`. -/
theorem c9_extends_witness :
    (parseRuleBlock c9Block = (some c9Rule, []) ∧
      (searchM extendsM c9Block).map (fun p => p.2.1) = some ("Base".toList) ∧
      endIdx c9Block ≤ thenEndPos c9Block) ∧
    (c9Rule.extendsName = some "Base".toList ∧ c9Rule.actions = []) :=
  ⟨⟨by decide, by decide, by decide⟩,
    c9_extends c9Block c9Rule [] ("Base".toList) (by decide) (by decide) (by decide)⟩

/-- C10: for every file content holding exactly one well-formed function
construct — exactly one brace-balanced extracted block, which parses, and
exactly one `function_pattern.finditer` match, whose braces resolve — the
parsed model's functions list has two entries: the two independent passes
of `_parse_functions` each append one `Function` for the same source
function. -/
theorem c10_double_function (content : Chars) (fb : Chars) (st en : Nat)
    (g3 : Chars × Chars × Chars)
    (hblocks : extractBlocksFunction (splitOnChar '\n' content) [] false 0 = [fb])
    (hfb : (parseFunctionBlock fb).isSome = true)
    (hms : iterMPos functionM (content.length + 1) content 0 = [(st, en, g3)])
    (hbr : ∃ ob cb, idxOfCharFrom? '{' content en = some ob ∧
      findCloseBrace (content.drop (ob + 1)) 1 (ob + 1) = some cb) :
    (parseContent content).1.functions.length = 2 := by
  have hne : ¬ ((trim content).isEmpty = true) := by
    intro he
    rw [extractBlocksFunction_of_trim_nil (List.isEmpty_iff.mp he)] at hblocks
    cases hblocks
  have hfuns : (parseContent content).1.functions = (parseFunctions content).1 := by
    unfold parseContent
    rw [if_neg hne]
    rfl
  rw [hfuns]
  have hp2 : ∃ F, functionsPass2Go content [(st, en, g3)] = ([F], false) := by
    rcases hbr with ⟨ob, cb, hob, hcb⟩
    rcases g3 with ⟨rt, nm, ps⟩
    refine ⟨⟨trim rt, trim nm,
      (if (trim ps).isEmpty then [] else parseParamsPass2 (trim ps)),
      trim ((content.drop (ob + 1)).take (cb - (ob + 1)))⟩, ?_⟩
    unfold functionsPass2Go
    simp only [hob, hcb]
    rfl
  rcases hp2 with ⟨F, hp2⟩
  rcases hv : parseFunctionBlock fb with _ | f1
  · rw [hv] at hfb
    cases hfb
  · unfold parseFunctions
    rw [hblocks, hms]
    simp only [List.foldl_cons, List.foldl_nil, hv, hp2]
    simp

theorem tryDown_some {α : Type} {f : Nat → Option α} {a : α} :
    ∀ {n : Nat}, tryDown f n = some a → ∃ k, k ≤ n ∧ f k = some a := by
  intro n
  induction n with
  | zero => intro h; exact ⟨0, le_refl 0, h⟩
  | succ m ih =>
    intro h
    unfold tryDown at h
    cases hf : f (m + 1) with
    | some b =>
      rw [hf] at h
      exact ⟨m + 1, le_refl _, by rw [hf]; exact h⟩
    | none =>
      rw [hf] at h
      obtain ⟨k, hk, hfk⟩ := ih h
      exact ⟨k, le_trans hk (Nat.le_succ m), hfk⟩

theorem tryDown1_some {α : Type} {f : Nat → Option α} {a : α} :
    ∀ {n : Nat}, tryDown1 f n = some a → ∃ k, 1 ≤ k ∧ k ≤ n ∧ f k = some a := by
  intro n
  induction n with
  | zero => intro h; cases h
  | succ m ih =>
    intro h
    unfold tryDown1 at h
    cases hf : f (m + 1) with
    | some b =>
      rw [hf] at h
      exact ⟨m + 1, Nat.succ_le_succ (Nat.zero_le m), le_refl _, by rw [hf]; exact h⟩
    | none =>
      rw [hf] at h
      obtain ⟨k, h1, hk, hfk⟩ := ih h
      exact ⟨k, h1, le_trans hk (Nat.le_succ m), hfk⟩

theorem take_all_of_le_runLen {p : Char → Bool} {s : Chars} {n : Nat}
    (h : n ≤ runLen p s) : ∀ c ∈ s.take n, p c = true := by
  intro c hc
  unfold runLen at h
  have hpre : s.take n <+: s.takeWhile p := by
    refine List.prefix_of_prefix_length_le (List.take_prefix n s)
      (List.takeWhile_prefix p) ?_
    simp only [List.length_take]
    omega
  exact List.mem_takeWhile_imp (hpre.subset hc)

theorem take_ne_nil_of_one_le_runLen {p : Char → Bool} {s : Chars} {n : Nat}
    (h1 : 1 ≤ n) (h2 : n ≤ runLen p s) : s.take n ≠ [] := by
  intro hnil
  have : s ≠ [] := by
    intro hs
    subst hs
    simp [runLen] at h2
    omega
  rw [List.take_eq_nil_iff] at hnil
  rcases hnil with h | h
  · omega
  · exact absurd h this

theorem classPlus_some {α : Type} {p : Char → Bool} {k : Chars → Chars → Option α}
    {s : Chars} {a : α} (h : classPlus p k s = some a) :
    ∃ g rest, g ≠ [] ∧ (∀ c ∈ g, p c = true) ∧ k g rest = some a := by
  unfold classPlus at h
  obtain ⟨n, h1, h2, h3⟩ := tryDown1_some h
  exact ⟨s.take n, s.drop n, take_ne_nil_of_one_le_runLen h1 h2,
    take_all_of_le_runLen h2, h3⟩

theorem wsStar_some {α : Type} {k : Chars → Option α} {s : Chars} {a : α}
    (h : wsStar k s = some a) : ∃ rest, k rest = some a := by
  unfold wsStar at h
  obtain ⟨n, _, h3⟩ := tryDown_some h
  exact ⟨s.drop n, h3⟩

theorem lit_some {α : Type} {l : Chars} {k : Chars → Option α} {s : Chars} {a : α}
    (h : lit l k s = some a) : ∃ rest, k rest = some a := by
  unfold lit at h
  cases hd : dropLit l s with
  | none => rw [hd] at h; cases h
  | some r => rw [hd] at h; exact ⟨r, h⟩

theorem opM_some {α : Type} {k : Chars → Chars → Option α} {s : Chars} {a : α}
    (h : opM k s = some a) : ∃ op rest, opOK op ∧ k op rest = some a := by
  unfold opM at h
  cases ht : tryDown1 (fun n => k (s.take n) (s.drop n)) (runLen isOpChar s) with
  | some b =>
    rw [ht] at h
    obtain ⟨n, h1, h2, h3⟩ := tryDown1_some ht
    refine ⟨s.take n, s.drop n,
      Or.inl ⟨take_ne_nil_of_one_le_runLen h1 h2, take_all_of_le_runLen h2⟩, ?_⟩
    rw [h3]
    exact h
  | none =>
    rw [ht] at h
    obtain ⟨rest, hr⟩ := lit_some h
    exact ⟨"matches".toList, rest, Or.inr rfl, hr⟩

theorem searchM_some {α : Type} {m : Chars → Option α} :
    ∀ {s : Chars} {i : Nat} {a : α},
      searchM m s = some (i, a) → ∃ s', m s' = some a := by
  intro s
  induction s with
  | nil =>
    intro i a h
    unfold searchM at h
    cases hm : m [] with
    | some b =>
      rw [hm] at h
      rw [Option.some.injEq, Prod.mk.injEq] at h
      exact ⟨[], by rw [hm, h.2]⟩
    | none => rw [hm] at h; cases h
  | cons c rest ih =>
    intro i a h
    unfold searchM at h
    cases hm : m (c :: rest) with
    | some b =>
      rw [hm] at h
      rw [Option.some.injEq, Prod.mk.injEq] at h
      exact ⟨c :: rest, by rw [hm, h.2]⟩
    | none =>
      rw [hm] at h
      cases hs : searchM m rest with
      | some pr =>
        rcases pr with ⟨j, b⟩
        rw [hs] at h
        rw [Option.some.injEq, Prod.mk.injEq] at h
        obtain ⟨s', hm'⟩ := ih hs
        exact ⟨s', by rw [hm', h.2]⟩
      | none => rw [hs] at h; cases h

theorem constraintM_op {s : Chars} {f op v rest : Chars}
    (h : constraintM s = some ((f, op, v), rest)) : opOK op := by
  unfold constraintM at h
  obtain ⟨g1, r1, _, _, h1⟩ := classPlus_some h
  obtain ⟨r2, h2⟩ := wsStar_some h1
  obtain ⟨op0, r3, hop, h3⟩ := opM_some h2
  obtain ⟨r4, h4⟩ := wsStar_some h3
  obtain ⟨g2, r5, _, _, h5⟩ := classPlus_some h4
  rw [Option.some.injEq, Prod.mk.injEq] at h5
  obtain ⟨h6, _⟩ := h5
  rw [Prod.mk.injEq] at h6
  obtain ⟨_, h7⟩ := h6
  rw [Prod.mk.injEq] at h7
  rw [← h7.1]
  exact hop

theorem mem_constraintFold :
    ∀ (parts : List Chars) (acc : List ConstraintM × List DiagCat)
      (c : ConstraintM), c ∈ (parts.foldl constraintStep acc).1 →
      c ∈ acc.1 ∨ ∃ part ∈ parts, ∃ (i : Nat) (f op raw rest : Chars),
        searchM constraintM part = some (i, ((f, op, raw), rest)) ∧
        c = ⟨f, op, stripQuotes (trim raw)⟩ := by
  intro parts
  induction parts with
  | nil => intro acc c hc; exact Or.inl hc
  | cons p ps ih =>
    intro acc c hc
    rw [List.foldl_cons] at hc
    rcases ih _ c hc with h | ⟨part, hpmem, rest⟩
    · unfold constraintStep at h
      cases hsp : searchM constraintM p with
      | none => rw [hsp] at h; exact Or.inl h
      | some pr =>
        rcases pr with ⟨i, ⟨⟨f, op, raw⟩, rest⟩⟩
        rw [hsp] at h
        rcases List.mem_append.mp h with h2 | h2
        · exact Or.inl h2
        · rw [List.mem_singleton] at h2
          exact Or.inr ⟨p, List.mem_cons_self p ps, i, f, op, raw, rest, hsp, h2⟩
    · exact Or.inr ⟨part, List.mem_cons_of_mem p hpmem, rest⟩

theorem parseConstraints_provenance {s : Chars} {c : ConstraintM}
    (hc : c ∈ (parseConstraints s).1) :
    ∃ part ∈ splitConstraints s, ∃ (i : Nat) (f op raw rest : Chars),
      searchM constraintM part = some (i, ((f, op, raw), rest)) ∧
      c = ⟨f, op, stripQuotes (trim raw)⟩ := by
  unfold parseConstraints at hc
  rcases mem_constraintFold _ ([], []) c hc with h | h
  · cases h
  · exact h

theorem parseConstraints_opOK {s : Chars} {c : ConstraintM}
    (hc : c ∈ (parseConstraints s).1) : opOK c.operator := by
  obtain ⟨part, _, i, f, op, raw, rest, hsp, hceq⟩ := parseConstraints_provenance hc
  obtain ⟨s', hm⟩ := searchM_some hsp
  subst hceq
  exact constraintM_op hm

theorem parseConditions_opOK {w : Chars} :
    ∀ cond ∈ (parseConditions w).1, ∀ c ∈ cond.constraints, opOK c.operator := by
  have main : ∀ (gs : List (Chars × Chars × Chars))
      (acc : List ConditionM × List DiagCat),
      (∀ cond ∈ acc.1, ∀ c ∈ cond.constraints, opOK c.operator) →
      ∀ cond ∈ (gs.foldl conditionStep acc).1, ∀ c ∈ cond.constraints,
        opOK c.operator := by
    intro gs
    induction gs with
    | nil => intro acc hacc cond hcond; exact hacc cond hcond
    | cons g rest ih =>
      intro acc hacc cond hcond
      rw [List.foldl_cons] at hcond
      refine ih _ ?_ cond hcond
      intro cond' hcond' c hc
      rcases g with ⟨v, ty, cs⟩
      unfold conditionStep at hcond'
      rcases List.mem_append.mp hcond' with h | h
      · exact hacc cond' h c hc
      · rw [List.mem_singleton] at h
        subst h
        by_cases he : (trim cs).isEmpty = true
        · simp only [he, if_true] at hc
          cases hc
        · simp only [he, if_false] at hc
          exact parseConstraints_opOK hc
  intro cond hcond
  exact main _ ([], []) (by intro cond h; cases h) cond hcond

theorem parseRuleBlock_opOK {b : Chars} {r : RuleM} {ds : List DiagCat}
    (h : parseRuleBlock b = (some r, ds)) :
    ∀ cond ∈ r.conditions, ∀ c ∈ cond.constraints, opOK c.operator := by
  unfold parseRuleBlock at h
  cases hname : searchM ruleNameM b with
  | none => rw [hname] at h; cases h
  | some pn =>
    rcases pn with ⟨ni, nm, nrest⟩
    rw [hname] at h
    cases hw : searchM whenM b with
    | none => rw [hw] at h; cases h
    | some pw =>
      rcases pw with ⟨wi, wRest⟩
      cases ht : searchM thenM b with
      | none => rw [hw, ht] at h; cases h
      | some pt =>
        rcases pt with ⟨tIdx, tRest⟩
        cases he : searchM endM b with
        | none => rw [hw, ht, he] at h; cases h
        | some pe =>
          rcases pe with ⟨eIdx, eRest⟩
          rw [hw, ht, he] at h
          rw [Prod.mk.injEq] at h
          obtain ⟨h1, _⟩ := h
          rw [Option.some.injEq] at h1
          subst h1
          intro cond hcond
          exact parseConditions_opOK cond hcond

theorem parseQueryBlockInline_opOK {b : Chars} {q : QueryM} {ds : List DiagCat}
    (h : parseQueryBlockInline b = (some q, ds)) :
    ∀ cond ∈ q.conditions, ∀ c ∈ cond.constraints, opOK c.operator := by
  unfold parseQueryBlockInline at h
  cases hname : searchM queryNameM b with
  | none => rw [hname] at h; cases h
  | some pn =>
    rcases pn with ⟨ni, nm, nrest⟩
    rw [hname] at h
    rw [Prod.mk.injEq] at h
    obtain ⟨h1, _⟩ := h
    rw [Option.some.injEq] at h1
    subst h1
    intro cond hcond
    exact parseConditions_opOK cond hcond

theorem mem_ruleFold :
    ∀ (blocks : List Chars) (acc : List RuleM × List DiagCat) (r : RuleM),
      r ∈ (blocks.foldl ruleBlockStep acc).1 →
      r ∈ acc.1 ∨ ∃ b ds, parseRuleBlock b = (some r, ds) := by
  intro blocks
  induction blocks with
  | nil => intro acc r hr; exact Or.inl hr
  | cons b bs ih =>
    intro acc r hr
    rw [List.foldl_cons] at hr
    rcases ih _ r hr with h | h
    · unfold ruleBlockStep at h
      rcases hpb : parseRuleBlock b with ⟨or, ds⟩
      cases or with
      | some r2 =>
        rw [hpb] at h
        rcases List.mem_append.mp h with h2 | h2
        · exact Or.inl h2
        · rw [List.mem_singleton] at h2
          subst h2
          exact Or.inr ⟨b, ds, hpb⟩
      | none => rw [hpb] at h; exact Or.inl h
    · exact Or.inr h

theorem mem_queryFold :
    ∀ (blocks : List Chars) (acc : List QueryM × List DiagCat) (q : QueryM),
      q ∈ (blocks.foldl queryBlockStep acc).1 →
      q ∈ acc.1 ∨ ∃ b ds, parseQueryBlockInline b = (some q, ds) := by
  intro blocks
  induction blocks with
  | nil => intro acc q hq; exact Or.inl hq
  | cons b bs ih =>
    intro acc q hq
    rw [List.foldl_cons] at hq
    rcases ih _ q hq with h | h
    · unfold queryBlockStep at h
      rcases hpb : parseQueryBlockInline b with ⟨oq, ds⟩
      cases oq with
      | some q2 =>
        rw [hpb] at h
        rcases List.mem_append.mp h with h2 | h2
        · exact Or.inl h2
        · rw [List.mem_singleton] at h2
          subst h2
          exact Or.inr ⟨b, ds, hpb⟩
      | none => rw [hpb] at h; exact Or.inl h
    · exact Or.inr h

theorem parseContent_queries_eq {text : Chars} (hne : ¬ ((trim text).isEmpty = true)) :
    (parseContent text).1.queries = (parseQueries text).1 := by
  unfold parseContent
  rw [if_neg hne]
  rfl

theorem allConstraints_opOK (content : Chars) (c : ConstraintM)
    (hc : c ∈ allConstraints (parseContent content).1) : opOK c.operator := by
  by_cases hne : (trim content).isEmpty = true
  · have hempty : parseContent content = (⟨[], [], [], [], [], [], []⟩, []) := by
      unfold parseContent
      rw [if_pos hne]
    rw [hempty] at hc
    simp [allConstraints] at hc
  · unfold allConstraints at hc
    rcases List.mem_append.mp hc with h | h
    · obtain ⟨r, hr, hcr⟩ := List.mem_flatMap.mp h
      obtain ⟨cond, hcond, hc2⟩ := List.mem_flatMap.mp hcr
      rw [parseContent_rules_eq hne] at hr
      rcases mem_ruleFold _ ([], []) r hr with h0 | ⟨b, ds, hpb⟩
      · cases h0
      · exact parseRuleBlock_opOK hpb cond hcond c hc2
    · obtain ⟨q, hq, hcq⟩ := List.mem_flatMap.mp h
      obtain ⟨cond, hcond, hc2⟩ := List.mem_flatMap.mp hcq
      rw [parseContent_queries_eq hne] at hq
      unfold parseQueries at hq
      rcases mem_queryFold _ ([], []) q hq with h0 | ⟨b, ds, hpb⟩
      · cases h0
      · exact parseQueryBlockInline_opOK hpb cond hcond c hc2

/-- C7 counterexample: parsing a rule whose condition reads `age =< 18`
stores a constraint with operator `=<`, which is outside the specified
operator set — the regex class `[=!<>]+` accepts any nonempty combination
of those characters. -/
theorem c7_counterexample :
    (parseContent c7Text).1.rules.map (fun r => r.conditions.map (fun c =>
      c.constraints.map (fun k => k.operator))) = [[["=<".toList]]] ∧
    "=<".toList ∉ claimedOperators :=
  ⟨by decide, by decide⟩

/-- C7 amended: every constraint stored by any parse has an operator that
is either a nonempty string over `=`,`!`,`<`,`>` or the literal `matches`
(a superset of the eight listed operators); every stored constraint comes
from a `constraint_pattern` match on one of the split parts, with its value
the trimmed raw literal passed through the quote stripper; and the stripper
removes the surrounding pair exactly when the literal both starts and ends
with the same quote character. -/
theorem c7_amended :
    (∀ (content : Chars) (c : ConstraintM),
      c ∈ allConstraints (parseContent content).1 → opOK c.operator) ∧
    (∀ (s : Chars) (c : ConstraintM), c ∈ (parseConstraints s).1 →
      ∃ part ∈ splitConstraints s, ∃ (i : Nat) (f op raw rest : Chars),
        searchM constraintM part = some (i, ((f, op, raw), rest)) ∧
        c = ⟨f, op, stripQuotes (trim raw)⟩) ∧
    (∀ (v : Chars) (a b : Char), v.head? = some a → v.getLast? = some b →
      ((a = dquote ∧ b = dquote) ∨ (a = squote ∧ b = squote)) →
      stripQuotes v = (v.drop 1).dropLast) := by
  refine ⟨fun content c hc => allConstraints_opOK content c hc,
    fun s c hc => parseConstraints_provenance hc, ?_⟩
  intro v a b h1 h2 h3
  rcases h3 with ⟨ha, hb⟩ | ⟨ha, hb⟩ <;> subst ha <;> subst hb <;>
    simp [stripQuotes, h1, h2]

/-- Witness for the amended C7: the `=<` operator stored for the concrete
input is in the producible operator language. -/
theorem c7_amended_witness : opOK ("=<".toList) :=
  c7_amended.1 c7Text ⟨"age".toList, "=<".toList, "18".toList⟩ (by decide)

/-- Witness for C10 at a single-line, single-function file. -/
theorem c10_double_function_witness :
    (extractBlocksFunction (splitOnChar '\n' c10Text) [] false 0 = [c10Text] ∧
      (parseFunctionBlock c10Text).isSome = true ∧
      iterMPos functionM (c10Text.length + 1) c10Text 0 =
        [(0, 30, ("int".toList, "add".toList, "int a, int b".toList))] ∧
      idxOfCharFrom? '{' c10Text 30 = some 31 ∧
      findCloseBrace (c10Text.drop 32) 1 32 = some 47) ∧
    (parseContent c10Text).1.functions.length = 2 :=
  ⟨⟨by decide, by decide, by decide, by decide, by decide⟩,
    c10_double_function c10Text c10Text 0 30
      ("int".toList, "add".toList, "int a, int b".toList)
      (by decide) (by decide) (by decide) ⟨31, 47, by decide, by decide⟩⟩

end Drools
